import Mathlib

/-!
Verification development for the expression-evaluator core of the
calculator application (`calculator.py`), together with its history store.

The Python functions `preprocess_expression`, `safe_eval`, `load_history`
and `append_history` are shallowly embedded below.  Regex substitutions are
transcribed as recursive functions over `List Char` with the same
left-to-right, non-overlapping replacement semantics as `re.sub`; the
restricted `eval` call is embedded as a tokenizer, a recursive-descent
parser for the reachable Python expression grammar, and an evaluator whose
identifier lookups go through the embedded `safe_dict`.  Python `float`
values are modelled as exact rationals; library functions (`math.sqrt`,
`math.sin`, ...) are modelled at the exact rational points the development
exercises, and return a designated error elsewhere.
-/

set_option maxHeartbeats 2000000

/-! ## Character classes

`isDigitC` models the regex class `\d` and `isSpaceC` the class `\s`:
Python compiles the patterns of `preprocess_expression` as Unicode
patterns, so `\d` matches every character of Unicode category Nd (the
ranges below transcribe CPython's table) and `\s` matches the Unicode
whitespace set — which is exactly the set `str.isspace` accepts and
`str.strip()` removes.  `isLowerAZ` models `[a-z]`.  The lexer inside
`eval` is stricter: numeric literals may use only the ASCII digits
(`isDigitA`), and `isSpaceA` is the whitespace the tokenizer model
skips. -/

def isDigitC (c : Char) : Bool :=
  if c.toNat < 1632 then 48 ≤ c.toNat && c.toNat ≤ 57
  else
    (1632 ≤ c.toNat && c.toNat ≤ 1641) || (1776 ≤ c.toNat && c.toNat ≤ 1785) ||
    (1984 ≤ c.toNat && c.toNat ≤ 1993) || (2406 ≤ c.toNat && c.toNat ≤ 2415) ||
    (2534 ≤ c.toNat && c.toNat ≤ 2543) || (2662 ≤ c.toNat && c.toNat ≤ 2671) ||
    (2790 ≤ c.toNat && c.toNat ≤ 2799) || (2918 ≤ c.toNat && c.toNat ≤ 2927) ||
    (3046 ≤ c.toNat && c.toNat ≤ 3055) || (3174 ≤ c.toNat && c.toNat ≤ 3183) ||
    (3302 ≤ c.toNat && c.toNat ≤ 3311) || (3430 ≤ c.toNat && c.toNat ≤ 3439) ||
    (3558 ≤ c.toNat && c.toNat ≤ 3567) || (3664 ≤ c.toNat && c.toNat ≤ 3673) ||
    (3792 ≤ c.toNat && c.toNat ≤ 3801) || (3872 ≤ c.toNat && c.toNat ≤ 3881) ||
    (4160 ≤ c.toNat && c.toNat ≤ 4169) || (4240 ≤ c.toNat && c.toNat ≤ 4249) ||
    (6112 ≤ c.toNat && c.toNat ≤ 6121) || (6160 ≤ c.toNat && c.toNat ≤ 6169) ||
    (6470 ≤ c.toNat && c.toNat ≤ 6479) || (6608 ≤ c.toNat && c.toNat ≤ 6617) ||
    (6784 ≤ c.toNat && c.toNat ≤ 6793) || (6800 ≤ c.toNat && c.toNat ≤ 6809) ||
    (6992 ≤ c.toNat && c.toNat ≤ 7001) || (7088 ≤ c.toNat && c.toNat ≤ 7097) ||
    (7232 ≤ c.toNat && c.toNat ≤ 7241) || (7248 ≤ c.toNat && c.toNat ≤ 7257) ||
    (42528 ≤ c.toNat && c.toNat ≤ 42537) || (43216 ≤ c.toNat && c.toNat ≤ 43225) ||
    (43264 ≤ c.toNat && c.toNat ≤ 43273) || (43472 ≤ c.toNat && c.toNat ≤ 43481) ||
    (43504 ≤ c.toNat && c.toNat ≤ 43513) || (43600 ≤ c.toNat && c.toNat ≤ 43609) ||
    (44016 ≤ c.toNat && c.toNat ≤ 44025) || (65296 ≤ c.toNat && c.toNat ≤ 65305) ||
    (66720 ≤ c.toNat && c.toNat ≤ 66729) || (68912 ≤ c.toNat && c.toNat ≤ 68921) ||
    (69734 ≤ c.toNat && c.toNat ≤ 69743) || (69872 ≤ c.toNat && c.toNat ≤ 69881) ||
    (69942 ≤ c.toNat && c.toNat ≤ 69951) || (70096 ≤ c.toNat && c.toNat ≤ 70105) ||
    (70384 ≤ c.toNat && c.toNat ≤ 70393) || (70736 ≤ c.toNat && c.toNat ≤ 70745) ||
    (70864 ≤ c.toNat && c.toNat ≤ 70873) || (71248 ≤ c.toNat && c.toNat ≤ 71257) ||
    (71360 ≤ c.toNat && c.toNat ≤ 71369) || (71472 ≤ c.toNat && c.toNat ≤ 71481) ||
    (71904 ≤ c.toNat && c.toNat ≤ 71913) || (72016 ≤ c.toNat && c.toNat ≤ 72025) ||
    (72784 ≤ c.toNat && c.toNat ≤ 72793) || (73040 ≤ c.toNat && c.toNat ≤ 73049) ||
    (73120 ≤ c.toNat && c.toNat ≤ 73129) || (92768 ≤ c.toNat && c.toNat ≤ 92777) ||
    (92864 ≤ c.toNat && c.toNat ≤ 92873) || (93008 ≤ c.toNat && c.toNat ≤ 93017) ||
    (120782 ≤ c.toNat && c.toNat ≤ 120831) || (123200 ≤ c.toNat && c.toNat ≤ 123209) ||
    (123632 ≤ c.toNat && c.toNat ≤ 123641) || (125264 ≤ c.toNat && c.toNat ≤ 125273) ||
    (130032 ≤ c.toNat && c.toNat ≤ 130041)

def isDigitA (c : Char) : Bool := c.isDigit

def isLowerAZ (c : Char) : Bool := 'a' ≤ c && c ≤ 'z'

def isSpaceC (c : Char) : Bool :=
  if c.toNat ≤ 32 then
    c = '\t' || c = '\n' || c = '\x0b' || c = '\x0c' || c = '\r' ||
    c = '\x1c' || c = '\x1d' || c = '\x1e' || c = '\x1f' || c = ' '
  else
    c = '\x85' || c = '\xa0' || c = '\u1680' ||
    c = '\u2000' || c = '\u2001' || c = '\u2002' || c = '\u2003' || c = '\u2004' ||
    c = '\u2005' || c = '\u2006' || c = '\u2007' || c = '\u2008' || c = '\u2009' ||
    c = '\u200a' || c = '\u2028' || c = '\u2029' || c = '\u202f' || c = '\u205f' ||
    c = '\u3000'

def isSpaceA (c : Char) : Bool :=
  c = ' ' || c = '\t' || c = '\n' || c = '\r' || c = '\x0b' || c = '\x0c'

/-- Python `str.strip()`: drop whitespace from both ends. -/
def stripChars (l : List Char) : List Char :=
  ((l.dropWhile isSpaceC).reverse.dropWhile isSpaceC).reverse

/-! ## The percent rewrite
`re.sub(r'(\d+(?:\.\d+)?)\s*%', r'(\1/100)', expr)` (calculator.py line 195). -/

/-- Attempt to match the regex `(\d+(?:\.\d+)?)\s*%` at the head of `l`.
On success, return the captured numeric literal (group 1) and the input
remaining after the `%`.  The match is greedy; as in the regex, failure of
the tail after taking the optional fractional part cannot be repaired by
backtracking (dropping `\.\d+` leaves the scanner on `.`, which is neither
whitespace nor `%`). -/
def matchPct (l : List Char) : Option (List Char × List Char) :=
  let ds := l.takeWhile isDigitC
  let r1 := l.dropWhile isDigitC
  if ds.isEmpty then none else
    match r1 with
    | '.' :: t =>
      let fs := t.takeWhile isDigitC
      if fs.isEmpty then none else
        match (t.dropWhile isDigitC).dropWhile isSpaceC with
        | '%' :: rest => some (ds ++ '.' :: fs, rest)
        | _ => none
    | _ =>
      match r1.dropWhile isSpaceC with
      | '%' :: rest => some (ds, rest)
      | _ => none

/-- One fuelled left-to-right pass of the percent substitution: at each
position try `matchPct`; on a match emit `(lit/100)` and continue after the
match, otherwise emit the character and move one position right. -/
def pctSubF : Nat → List Char → List Char
  | 0, l => l
  | _ + 1, [] => []
  | f + 1, c :: rest =>
    match matchPct (c :: rest) with
    | some (lit, rest') =>
      '(' :: (lit ++ '/' :: '1' :: '0' :: '0' :: ')' :: pctSubF f rest')
    | none => c :: pctSubF f rest

/-- The percent substitution (fuel `l.length` always suffices: every step
consumes at least one input character). -/
def pctSub (l : List Char) : List Char := pctSubF l.length l

/-! ## The implicit-multiplication rewrites
Lines 197-200 of calculator.py: each is `re.sub` of a two-character pattern
`(X)(Y)` replaced by `X*Y`; scanning continues after a replaced pair. -/

/-- Generic two-character-adjacency substitution: insert `*` between an
adjacent pair `a b` with `p1 a && p2 b`; scanning resumes after `b`. -/
def pairSub (p1 p2 : Char → Bool) : List Char → List Char
  | [] => []
  | [a] => [a]
  | a :: b :: rest =>
    if p1 a && p2 b then a :: '*' :: b :: pairSub p1 p2 rest
    else a :: pairSub p1 p2 (b :: rest)

/-- `re.sub(r'(\d)([a-z])', r'\1*\2', expr)`. -/
def digitLowerSub : List Char → List Char := pairSub isDigitC isLowerAZ

/-- `re.sub(r'(\d)\(', r'\1*(', expr)`. -/
def digitParenSub : List Char → List Char := pairSub isDigitC (fun c => c = '(')

/-- `re.sub(r'\)(\d)', r')*\1', expr)`. -/
def parenDigitSub : List Char → List Char := pairSub (fun c => c = ')') isDigitC

/-- `re.sub(r'\)\(', r')*(', expr)`. -/
def parenParenSub : List Char → List Char := pairSub (fun c => c = ')') (fun c => c = '(')

/-- The full preprocessing pipeline on character lists, in source order:
strip, percent rewrite, then the four implicit-multiplication rewrites. -/
def preprocessL (l : List Char) : List Char :=
  parenParenSub (parenDigitSub (digitParenSub (digitLowerSub (pctSub (stripChars l)))))

/-- `preprocess_expression` of calculator.py (lines 191-201). -/
def preprocess_expression (s : String) : String := ⟨preprocessL s.data⟩

/-! ## Values

Python values reachable from the evaluated expressions.  `float` is
modelled as an exact rational; `extFloat` stands for the special floating
values (`math.inf`, `math.nan`, `math.tau`) whose arithmetic is not
modelled; `pynone` is Python's `None`; `fn` is a callable from the
namespace, identified by its name. -/

inductive PyVal where
  | int (n : ℤ)
  | float (q : ℚ)
  | bool (b : Bool)
  | pynone
  | fn (fname : String)
  | extFloat (cname : String)
deriving DecidableEq

/-- Error outcomes of evaluating an expression: the Python exception
classes distinguished by `safe_eval`'s handlers, plus `unmodelled` for
real-number computations this embedding does not model exactly (such
inputs fall into no claim). -/
inductive PyErr where
  | zeroDiv
  | nameErr (n : String)
  | typeErr (m : String)
  | valueErr (m : String)
  | unmodelled (m : String)
deriving DecidableEq

/-! Rational arithmetic executed by the evaluator.  These are the field
operations of `ℚ`, written through `mkRat` so that every concrete run of
the evaluator reduces inside the kernel; `qAdd_eq`, `qSub_eq`, `qMul_eq`
and `qDiv_eq` below identify them with `+`, `-`, `*` and `/`. -/

def qAdd (a b : ℚ) : ℚ := mkRat (a.num * b.den + b.num * a.den) (a.den * b.den)

def qNeg (a : ℚ) : ℚ := -a

def qSub (a b : ℚ) : ℚ := qAdd a (-b)

def qMul (a b : ℚ) : ℚ := mkRat (a.num * b.num) (a.den * b.den)

def qDiv (a b : ℚ) : ℚ :=
  if 0 ≤ b.num then mkRat (a.num * b.den) (a.den * b.num.toNat)
  else mkRat (-(a.num * b.den)) (a.den * (-b.num).toNat)

/-- The exact rational value of the IEEE-754 double `math.pi`. -/
def piQ : ℚ := mkRat 884279719003555 281474976710656

/-- The exact rational value of the IEEE-754 double `math.e`. -/
def eQ : ℚ := mkRat 6121026514868073 2251799813685248

/-! ## The namespace (`safe_dict`, calculator.py lines 207-219) -/

/-- Modelled from CPython: the result of `dir(math)` (Python 3.10), the
five dunder attributes followed by the public names in sorted order. -/
def dirMath : List String :=
  ["__doc__", "__loader__", "__name__", "__package__", "__spec__",
   "acos", "acosh", "asin", "asinh", "atan", "atan2", "atanh", "ceil",
   "comb", "copysign", "cos", "cosh", "degrees", "dist", "e", "erf",
   "erfc", "exp", "expm1", "fabs", "factorial", "floor", "fmod", "frexp",
   "fsum", "gamma", "gcd", "hypot", "inf", "isclose", "isfinite", "isinf",
   "isnan", "isqrt", "lcm", "ldexp", "lgamma", "log", "log10", "log1p",
   "log2", "modf", "nan", "nextafter", "perm", "pi", "pow", "prod",
   "radians", "remainder", "sin", "sinh", "sqrt", "tan", "tanh", "tau",
   "trunc", "ulp"]

/-- `attr.startswith('_')` for the strings fed to the filter. -/
def startsWithUnderscore (s : String) : Bool :=
  match s.data with
  | c :: _ => c = '_'
  | [] => false

/-- `[attr for attr in dir(math) if not attr.startswith('_')]`. -/
def mathAttrs : List String := dirMath.filter (fun a => !startsWithUnderscore a)

/-- The value bound to a public `math` attribute: the constants `pi` and
`e` are exact rationals, `inf`/`nan`/`tau` are unmodelled floats, and
every other attribute is a callable. -/
def mathVal (a : String) : PyVal :=
  if a = "pi" then .float piQ
  else if a = "e" then .float eQ
  else if a = "inf" || a = "nan" || a = "tau" then .extFloat a
  else .fn a

/-- The dict literal that seeds `safe_dict`: `__builtins__` is bound to
`None`, and the five builtins are callables. -/
def baseDict : List (String × PyVal) :=
  [("__builtins__", .pynone), ("abs", .fn "abs"), ("round", .fn "round"),
   ("pow", .fn "pow"), ("min", .fn "min"), ("max", .fn "max")]

/-- Python dict assignment `d[k] = v`: overwrite in place if the key is
present, else append. -/
def dictInsert (d : List (String × PyVal)) (k : String) (v : PyVal) :
    List (String × PyVal) :=
  if d.any (fun p => p.1 = k) then
    d.map (fun p => if p.1 = k then (k, v) else p)
  else d ++ [(k, v)]

/-- `safe_dict` after the `for attr in math_attrs` loop. -/
def safeDict : List (String × PyVal) :=
  mathAttrs.foldl (fun d a => dictInsert d a (mathVal a)) baseDict

/-- Python dict lookup (keys are unique, so first match suffices). -/
def dictGet (d : List (String × PyVal)) (k : String) : Option PyVal :=
  (d.find? (fun p => p.1 = k)).map (fun p => p.2)

/-! ## Tokenizer

The lexical subset of Python reachable from calculator input: integer and
decimal literals, identifiers, the operators appearing in the grammar, and
whitespace.  Any other character is a lexical error (`SyntaxError`). -/

inductive Tok where
  | tInt (n : ℤ)
  | tFloat (q : ℚ)
  | tId (s : String)
  | tPlus | tMinus | tStar | tSlash | tDStar | tPercent
  | tLt | tGt | tLParen | tRParen | tComma
deriving DecidableEq

def digitVal (c : Char) : ℕ := c.toNat - '0'.toNat

def digitsVal (l : List Char) : ℕ := l.foldl (fun a c => 10 * a + digitVal c) 0

/-- The value of a fractional digit string (`"25"` ↦ `1/4`). -/
def fracVal (l : List Char) : ℚ := mkRat (digitsVal l) (10 ^ l.length)

def isIdentStart (c : Char) : Bool := c.isAlpha || c = '_'

def isIdentChar (c : Char) : Bool := isIdentStart c || isDigitA c

/-- Fuelled tokenizer; each step consumes at least one character, so fuel
`length + 1` always suffices. -/
def tokenizeF : Nat → List Char → Option (List Tok)
  | 0, _ => none
  | _ + 1, [] => some []
  | f + 1, c :: rest =>
    if isSpaceA c then tokenizeF f rest
    else if isDigitA c then
      if ((c :: rest).dropWhile isDigitA).head? = some '.' then
        (tokenizeF f (((c :: rest).dropWhile isDigitA).tail.dropWhile isDigitA)).map
          (fun ts => Tok.tFloat (qAdd (digitsVal ((c :: rest).takeWhile isDigitA) : ℚ)
            (fracVal (((c :: rest).dropWhile isDigitA).tail.takeWhile isDigitA))) :: ts)
      else
        (tokenizeF f ((c :: rest).dropWhile isDigitA)).map
          (fun ts => Tok.tInt (digitsVal ((c :: rest).takeWhile isDigitA)) :: ts)
    else if isIdentStart c then
      (tokenizeF f ((c :: rest).dropWhile isIdentChar)).map
        (fun ts => Tok.tId ⟨(c :: rest).takeWhile isIdentChar⟩ :: ts)
    else if c = '.' then
      if rest.head?.any isDigitA then
        (tokenizeF f (rest.dropWhile isDigitA)).map
          (fun ts => Tok.tFloat (fracVal (rest.takeWhile isDigitA)) :: ts)
      else none
    else if c = '*' then
      if rest.head? = some '*' then (tokenizeF f rest.tail).map (fun ts => Tok.tDStar :: ts)
      else (tokenizeF f rest).map (fun ts => Tok.tStar :: ts)
    else if c = '+' then (tokenizeF f rest).map (fun ts => Tok.tPlus :: ts)
    else if c = '-' then (tokenizeF f rest).map (fun ts => Tok.tMinus :: ts)
    else if c = '/' then (tokenizeF f rest).map (fun ts => Tok.tSlash :: ts)
    else if c = '%' then (tokenizeF f rest).map (fun ts => Tok.tPercent :: ts)
    else if c = '<' then (tokenizeF f rest).map (fun ts => Tok.tLt :: ts)
    else if c = '>' then (tokenizeF f rest).map (fun ts => Tok.tGt :: ts)
    else if c = '(' then (tokenizeF f rest).map (fun ts => Tok.tLParen :: ts)
    else if c = ')' then (tokenizeF f rest).map (fun ts => Tok.tRParen :: ts)
    else if c = ',' then (tokenizeF f rest).map (fun ts => Tok.tComma :: ts)
    else none

def tokenize (l : List Char) : Option (List Tok) := tokenizeF (l.length + 1) l

/-! ## Expression grammar and parser -/

inductive PExpr where
  | intL (n : ℤ)
  | floatL (q : ℚ)
  | name (s : String)
  | neg (a : PExpr)
  | add (a b : PExpr)
  | sub (a b : PExpr)
  | mul (a b : PExpr)
  | divE (a b : PExpr)
  | modE (a b : PExpr)
  | powE (a b : PExpr)
  | gtE (a b : PExpr)
  | ltE (a b : PExpr)
  | call (f : PExpr) (args : List PExpr)

/-- Parser state: the grammar production being parsed.  The `..R` modes
carry the left operand of a left-associative chain; `argsR` carries the
callee and the argument list accumulated so far. -/
inductive PMode where
  | cmp
  | cmpR (a : PExpr)
  | arith
  | arithR (a : PExpr)
  | term
  | termR (a : PExpr)
  | factor
  | power
  | atomCall
  | trailerR (a : PExpr)
  | argsR (f : PExpr) (acc : List PExpr)
  | atom

/-- Fuelled recursive-descent parser for the Python expression subset:
comparison > additive > multiplicative > unary minus > power (right
associative) > call trailers > atoms.  Returns the parsed expression and
the remaining tokens. -/
def parseP : Nat → PMode → List Tok → Option (PExpr × List Tok)
  | 0, _, _ => none
  | f + 1, m, ts =>
    match m with
    | .cmp =>
      match parseP f .arith ts with
      | some (a, rest) => parseP f (.cmpR a) rest
      | none => none
    | .cmpR a =>
      match ts with
      | .tGt :: r => (parseP f .arith r).map (fun p => (.gtE a p.1, p.2))
      | .tLt :: r => (parseP f .arith r).map (fun p => (.ltE a p.1, p.2))
      | _ => some (a, ts)
    | .arith =>
      match parseP f .term ts with
      | some (a, rest) => parseP f (.arithR a) rest
      | none => none
    | .arithR a =>
      match ts with
      | .tPlus :: r =>
        match parseP f .term r with
        | some (b, r') => parseP f (.arithR (.add a b)) r'
        | none => none
      | .tMinus :: r =>
        match parseP f .term r with
        | some (b, r') => parseP f (.arithR (.sub a b)) r'
        | none => none
      | _ => some (a, ts)
    | .term =>
      match parseP f .factor ts with
      | some (a, rest) => parseP f (.termR a) rest
      | none => none
    | .termR a =>
      match ts with
      | .tStar :: r =>
        match parseP f .factor r with
        | some (b, r') => parseP f (.termR (.mul a b)) r'
        | none => none
      | .tSlash :: r =>
        match parseP f .factor r with
        | some (b, r') => parseP f (.termR (.divE a b)) r'
        | none => none
      | .tPercent :: r =>
        match parseP f .factor r with
        | some (b, r') => parseP f (.termR (.modE a b)) r'
        | none => none
      | _ => some (a, ts)
    | .factor =>
      match ts with
      | .tMinus :: r => (parseP f .factor r).map (fun p => (.neg p.1, p.2))
      | _ => parseP f .power ts
    | .power =>
      match parseP f .atomCall ts with
      | some (a, rest) =>
        match rest with
        | .tDStar :: r => (parseP f .factor r).map (fun p => (.powE a p.1, p.2))
        | _ => some (a, rest)
      | none => none
    | .atomCall =>
      match parseP f .atom ts with
      | some (a, rest) => parseP f (.trailerR a) rest
      | none => none
    | .trailerR a =>
      match ts with
      | .tLParen :: r =>
        match r with
        | .tRParen :: r' => parseP f (.trailerR (.call a [])) r'
        | _ =>
          match parseP f .cmp r with
          | some (b, r') => parseP f (.argsR a [b]) r'
          | none => none
      | _ => some (a, ts)
    | .argsR fn acc =>
      match ts with
      | .tComma :: r =>
        match parseP f .cmp r with
        | some (b, r') => parseP f (.argsR fn (acc ++ [b])) r'
        | none => none
      | .tRParen :: r => parseP f (.trailerR (.call fn acc)) r
      | _ => none
    | .atom =>
      match ts with
      | .tInt n :: r => some (.intL n, r)
      | .tFloat q :: r => some (.floatL q, r)
      | .tId s :: r => some (.name s, r)
      | .tLParen :: r =>
        match parseP f .cmp r with
        | some (a, .tRParen :: r') => some (a, r')
        | _ => none
      | _ => none

/-- Parse a complete token list as one expression. -/
def parseToks (ts : List Tok) : Option PExpr :=
  match parseP (16 * (ts.length + 1)) .cmp ts with
  | some (e, []) => some e
  | _ => none

/-! ## Evaluation -/

/-- Values Python treats as `int` for arithmetic (`bool` is a subclass of
`int`). -/
def intOf : PyVal → Option ℤ
  | .int n => some n
  | .bool b => some (if b then 1 else 0)
  | _ => none

/-- The exact rational value of a Python number, when modelled. -/
def ratOf : PyVal → Option ℚ
  | .int n => some (n : ℚ)
  | .float q => some q
  | .bool b => some (if b then 1 else 0)
  | _ => none

/-- Whether the value is numeric (including the unmodelled floats). -/
def isNumV : PyVal → Bool
  | .int _ => true
  | .float _ => true
  | .bool _ => true
  | .extFloat _ => true
  | _ => false

/-- Python `+`, `-`, `*`: integer arithmetic when both operands are
`int`-like, floating (here: exact rational) arithmetic when a `float` is
involved, `TypeError` on non-numbers. -/
def pyArith (opInt : ℤ → ℤ → ℤ) (opQ : ℚ → ℚ → ℚ) (a b : PyVal) :
    Except PyErr PyVal :=
  match intOf a, intOf b with
  | some x, some y => .ok (.int (opInt x y))
  | _, _ =>
    match ratOf a, ratOf b with
    | some x, some y => .ok (.float (opQ x y))
    | _, _ =>
      if isNumV a && isNumV b then .error (.unmodelled "special float arithmetic")
      else .error (.typeErr "unsupported operand type(s)")

/-- Python true division `/`: always a float; `ZeroDivisionError` on a
zero divisor. -/
def pyDiv (a b : PyVal) : Except PyErr PyVal :=
  match ratOf a, ratOf b with
  | some x, some y =>
    if y = 0 then .error .zeroDiv else .ok (.float (qDiv x y))
  | _, _ =>
    if isNumV a && isNumV b then .error (.unmodelled "special float arithmetic")
    else .error (.typeErr "unsupported operand type(s)")

/-- Python `%` on integers (floor modulus; `ZeroDivisionError` on zero). -/
def pyMod (a b : PyVal) : Except PyErr PyVal :=
  match intOf a, intOf b with
  | some x, some y =>
    if y = 0 then .error .zeroDiv else .ok (.int (Int.fmod x y))
  | _, _ =>
    if isNumV a && isNumV b then .error (.unmodelled "float modulus")
    else .error (.typeErr "unsupported operand type(s)")

/-- Python `**`: `int ** nonnegative int` is an `int`; a negative integer
exponent yields a float (modelled exactly); `0 ** negative` raises
`ZeroDivisionError`; fractional exponents are not modelled. -/
def pyPow (a b : PyVal) : Except PyErr PyVal :=
  match intOf a, intOf b with
  | some x, some y =>
    if 0 ≤ y then .ok (.int (x ^ y.toNat))
    else if x = 0 then .error .zeroDiv
    else .ok (.float ((x : ℚ) ^ y))
  | _, _ =>
    match ratOf a, ratOf b with
    | some x, some y =>
      if y.den = 1 then
        if x = 0 && y < 0 then .error .zeroDiv else .ok (.float (x ^ y.num))
      else .error (.unmodelled "fractional exponent")
    | _, _ =>
      if isNumV a && isNumV b then .error (.unmodelled "special float arithmetic")
      else .error (.typeErr "unsupported operand type(s)")

/-- Python `>` on numbers. -/
def pyGt (a b : PyVal) : Except PyErr PyVal :=
  match ratOf a, ratOf b with
  | some x, some y => .ok (.bool (decide (y < x)))
  | _, _ =>
    if isNumV a && isNumV b then .error (.unmodelled "special float comparison")
    else .error (.typeErr "not supported between instances")

/-- Python `<` on numbers. -/
def pyLt (a b : PyVal) : Except PyErr PyVal :=
  match ratOf a, ratOf b with
  | some x, some y => .ok (.bool (decide (x < y)))
  | _, _ =>
    if isNumV a && isNumV b then .error (.unmodelled "special float comparison")
    else .error (.typeErr "not supported between instances")

/-- Python unary `-`. -/
def pyNeg (a : PyVal) : Except PyErr PyVal :=
  match a with
  | .int n => .ok (.int (-n))
  | .bool b => .ok (.int (-(if b then 1 else 0)))
  | .float q => .ok (.float (-q))
  | .extFloat _ => .error (.unmodelled "special float negation")
  | _ => .error (.typeErr "bad operand type for unary -")

/-- The exact square root of a nonnegative rational, when it exists. -/
def ratSqrt (q : ℚ) : Option ℚ :=
  match (List.range (q.num.toNat + 1)).find? (fun k => ((k : ℤ) * k = q.num : Bool)),
        (List.range (q.den + 1)).find? (fun k => (k * k = q.den : Bool)) with
  | some n, some d => some (mkRat n d)
  | _, _ => none

/-- Modelled from CPython's `math` library and builtins: application of a
callable from the namespace.  `sqrt` is exact on rational squares (IEEE
`sqrt` is exact there too); `sin` is modelled at `pi/2` and `0`, the
points the development exercises (IEEE `sin(pi/2)` is exactly `1.0`);
`factorial`, `floor`, `ceil`, `abs` are exact.  Every other call is not
modelled and is excluded from the claims. -/
def applyFn (fv : PyVal) (args : List PyVal) : Except PyErr PyVal :=
  match fv with
  | .fn fname =>
    match fname, args with
    | "sqrt", [v] =>
      match ratOf v with
      | some q =>
        if q < 0 then .error (.valueErr "math domain error")
        else
          match ratSqrt q with
          | some r => .ok (.float r)
          | none => .error (.unmodelled "irrational square root")
      | none => .error (.typeErr "must be real number")
    | "sin", [v] =>
      match ratOf v with
      | some q =>
        if q = qDiv piQ 2 then .ok (.float 1)
        else if q = 0 then .ok (.float 0)
        else .error (.unmodelled "sin away from modelled points")
      | none => .error (.typeErr "must be real number")
    | "abs", [v] =>
      match v with
      | .int n => .ok (.int (if n < 0 then -n else n))
      | .float q => .ok (.float (if q < 0 then -q else q))
      | .bool b => .ok (.int (if b then 1 else 0))
      | .extFloat _ => .error (.unmodelled "special float abs")
      | _ => .error (.typeErr "bad operand type for abs")
    | "factorial", [v] =>
      match v with
      | .int n =>
        if n < 0 then .error (.valueErr "factorial() not defined for negative values")
        else .ok (.int (Nat.factorial n.toNat))
      | _ => .error (.unmodelled "factorial argument")
    | "floor", [v] =>
      match ratOf v with
      | some q => .ok (.int (Int.floor q))
      | none => .error (.typeErr "must be real number")
    | "ceil", [v] =>
      match ratOf v with
      | some q => .ok (.int (Int.ceil q))
      | none => .error (.typeErr "must be real number")
    | _, _ => .error (.unmodelled ("call not modelled: " ++ fname))
  | _ => .error (.typeErr "object is not callable")

/-- A single quote character, for building Python's exception text. -/
def sQuote : String := ⟨[Char.ofNat 39]⟩

/-- Modelled from CPython: because `safe_dict` binds `__builtins__` to
`None` (calculator.py line 208), a name found in neither the locals nor
the globals is looked up in `None` as the builtins mapping, which raises
`TypeError` with this text.  A missing name therefore never raises
`NameError` under this namespace. -/
def pyNoneSubMsg : String :=
  sQuote ++ "NoneType" ++ sQuote ++ " object is not subscriptable"

/-- Fuelled expression evaluator.  Name resolution is exactly a lookup in
`safeDict` (the globals passed to `eval`; the locals dict is empty):
a hit evaluates to the bound value; a miss falls through to the builtins
lookup on `None` and so raises the `TypeError` of `pyNoneSubMsg`.  The
callee of a call is evaluated before its arguments, as in CPython. -/
def evalE : Nat → PExpr → Except PyErr PyVal
  | 0, _ => .error (.unmodelled "recursion limit")
  | f + 1, e =>
    match e with
    | .intL n => .ok (.int n)
    | .floatL q => .ok (.float q)
    | .name s =>
      match dictGet safeDict s with
      | some v => .ok v
      | none => .error (.typeErr pyNoneSubMsg)
    | .neg a => do pyNeg (← evalE f a)
    | .add a b => do pyArith (· + ·) qAdd (← evalE f a) (← evalE f b)
    | .sub a b => do pyArith (· - ·) qSub (← evalE f a) (← evalE f b)
    | .mul a b => do pyArith (· * ·) qMul (← evalE f a) (← evalE f b)
    | .divE a b => do pyDiv (← evalE f a) (← evalE f b)
    | .modE a b => do pyMod (← evalE f a) (← evalE f b)
    | .powE a b => do pyPow (← evalE f a) (← evalE f b)
    | .gtE a b => do pyGt (← evalE f a) (← evalE f b)
    | .ltE a b => do pyLt (← evalE f a) (← evalE f b)
    | .call g args =>
      match args with
      | [] => do applyFn (← evalE f g) []
      | [a] => do
        let gv ← evalE f g
        let av ← evalE f a
        applyFn gv [av]
      | [a, b] => do
        let gv ← evalE f g
        let av ← evalE f a
        let bv ← evalE f b
        applyFn gv [av, bv]
      | _ => .error (.unmodelled "call arity above two")

/-- The result formatting of `safe_eval` (calculator.py lines 228-233):
`isinstance(result, (int, float))` holds for `int`, `float` and `bool`
(a subclass of `int`); a `float` whose value is integral is converted
with `int(...)`; any other value yields `"Result is not a number"`. -/
def formatResult : PyVal → Option PyVal × Option String
  | .int n => (some (.int n), none)
  | .float q =>
    if q.den = 1 then (some (.int q.num), none) else (some (.float q), none)
  | .bool b => (some (.bool b), none)
  | .extFloat s => (some (.extFloat s), none)
  | .pynone => (none, some "Result is not a number")
  | .fn _ => (none, some "Result is not a number")

/-- Modelled from CPython: `str(e)` for a `NameError` about a name `n` is
`name 'n' is not defined`.  The `except NameError` handler of `safe_eval`
(calculator.py lines 239-240) formats its message from this text; with
`__builtins__` bound to `None` no missing-name lookup raises `NameError`,
so that handler is never reached, but it is embedded as the source keeps
it. -/
def pyNameErrorStr (n : String) : String :=
  "name " ++ sQuote ++ n ++ sQuote ++ " is not defined"

/-- Lexing and parsing of the preprocessed input (CPython's `compile`
step inside `eval`); `none` is a `SyntaxError`. -/
def parseStage (s : String) : Option PExpr :=
  (tokenize (preprocess_expression s).data).bind parseToks

/-- Evaluation fuel used by `safe_eval`: the nesting depth of a parsed
expression is below the length of the preprocessed input. -/
def evalFuel (s : String) : ℕ := (preprocess_expression s).data.length + 2

/-- `safe_eval` of calculator.py (lines 203-242): preprocess, evaluate
against the restricted namespace, format the result, and map each Python
exception class to its message.  The first component models the returned
number, the second the returned error string. -/
def safe_eval (s : String) : Option PyVal × Option String :=
  match parseStage s with
  | none => (none, some "Invalid syntax")
  | some e =>
    match evalE (evalFuel s) e with
    | .ok v => formatResult v
    | .error .zeroDiv => (none, some "Division by zero")
    | .error (.nameErr n) =>
      (none, some ("Unknown function or variable: " ++ pyNameErrorStr n))
    | .error (.typeErr m) => (none, some ("Error: " ++ m))
    | .error (.valueErr m) => (none, some ("Error: " ++ m))
    | .error (.unmodelled m) => (none, some ("Error: " ++ m))

/-! ## History store (calculator.py lines 169-188)

The JSON file holding all histories is modelled as a total map from
username to entry list (`histories.get(username, [])` makes the empty
list the default everywhere). -/

structure CalculationEntry where
  expr : String
  result : String
  timestamp : String
deriving DecidableEq

def MAX_HISTORY : ℕ := 100

/-- `load_history`: the user's list, newest first. -/
def load_history (h : String → List CalculationEntry) (u : String) :
    List CalculationEntry := h u

/-- `append_history`: insert the entry at the head of the user's list and
keep only the first `MAX_HISTORY` entries. -/
def append_history (h : String → List CalculationEntry) (u : String)
    (e : CalculationEntry) : String → List CalculationEntry :=
  fun v => if v = u then (e :: h u).take MAX_HISTORY else h v

/-- `clear_history`: remove the user's list (lookups then default to `[]`). -/
def clear_history (h : String → List CalculationEntry) (u : String) :
    String → List CalculationEntry :=
  fun v => if v = u then [] else h v

/-! ## Syntactic predicates used by the preprocessing theorems -/

/-- The strings that regex group `(\d+(?:\.\d+)?)` can capture. -/
def isLitB (l : List Char) : Bool :=
  let ds := l.takeWhile isDigitC
  match l.dropWhile isDigitC with
  | [] => !ds.isEmpty
  | '.' :: t => !ds.isEmpty && !t.isEmpty && t.all isDigitC
  | _ => false

/-- The characters of a percent-literal body. -/
def litChars (ds : List Char) (fso : Option (List Char)) : List Char :=
  ds ++ (match fso with | some fs => '.' :: fs | none => [])

/-- Well-formedness of the two components of a percent literal. -/
def LitOK (ds : List Char) (fso : Option (List Char)) : Prop :=
  ds ≠ [] ∧ ds.all isDigitA = true ∧
    ∀ fs, fso = some fs → fs ≠ [] ∧ fs.all isDigitA = true

/-- Scanner: the list is whitespace followed by `%` (the tail of a
percent-rule redex after its final digit). -/
def wsThenPct : List Char → Bool
  | [] => false
  | c :: r => c = '%' || (isSpaceC c && wsThenPct r)

/-- Scanner: some digit is followed by whitespace and then `%`; this holds
iff the percent regex `(\d+(?:\.\d+)?)\s*%` has a match in the string. -/
def hasDWP : List Char → Bool
  | [] => false
  | c :: r => (isDigitC c && wsThenPct r) || hasDWP r

/-- Scanner: some adjacent pair `a b` satisfies `p1 a && p2 b`. -/
def hasPair (p1 p2 : Char → Bool) : List Char → Bool
  | [] => false
  | a :: r =>
    (match r.head? with | some b => p1 a && p2 b | none => false) ||
      hasPair p1 p2 r

/-- Neither end of the list is whitespace (so `str.strip()` is inert). -/
def noWsEdge (l : List Char) : Prop :=
  (∀ c, l.head? = some c → isSpaceC c = false) ∧
    (∀ c, l.getLast? = some c → isSpaceC c = false)

/-- The identifier allowlist as the specification states it: the
non-underscore-prefixed names of the math module plus `abs`, `round`,
`pow`, `min`, `max`. -/
def claimedAllowlist : List String :=
  mathAttrs ++ ["abs", "round", "pow", "min", "max"]

/-- The token produced for a percent-literal body: an integer token when
there is no fractional part, a float token otherwise. -/
def numTok (ds : List Char) (fso : Option (List Char)) : Tok :=
  match fso with
  | none => Tok.tInt (digitsVal ds)
  | some fs => Tok.tFloat (qAdd (digitsVal ds : ℚ) (fracVal fs))

/-! # Theorems

## General list and character-class lemmas -/

theorem takeWhile_append_of_all {p : Char → Bool} {xs : List Char}
    (hx : xs.all p = true) (ys : List Char) :
    (xs ++ ys).takeWhile p = xs ++ ys.takeWhile p := by
  induction xs with
  | nil => simp
  | cons a t ih =>
    simp only [List.all_cons, Bool.and_eq_true] at hx
    simp [List.takeWhile_cons_of_pos hx.1, ih hx.2]

theorem dropWhile_append_of_all {p : Char → Bool} {xs : List Char}
    (hx : xs.all p = true) (ys : List Char) :
    (xs ++ ys).dropWhile p = ys.dropWhile p := by
  induction xs with
  | nil => simp
  | cons a t ih =>
    simp only [List.all_cons, Bool.and_eq_true] at hx
    simp [List.dropWhile_cons_of_pos hx.1, ih hx.2]

theorem length_dropWhile_le (p : Char → Bool) (l : List Char) :
    (l.dropWhile p).length ≤ l.length := by
  induction l with
  | nil => simp
  | cons a t ih =>
    by_cases h : p a
    · rw [List.dropWhile_cons_of_pos h]; exact le_trans ih (by simp)
    · rw [List.dropWhile_cons_of_neg h]

theorem isSpaceC_elim {c : Char} (h : isSpaceC c = true) :
    c = '\t' ∨ c = '\n' ∨ c = '\x0b' ∨ c = '\x0c' ∨ c = '\r' ∨
    c = '\x1c' ∨ c = '\x1d' ∨ c = '\x1e' ∨ c = '\x1f' ∨ c = ' ' ∨
    c = '\x85' ∨ c = '\xa0' ∨ c = '\u1680' ∨
    c = '\u2000' ∨ c = '\u2001' ∨ c = '\u2002' ∨ c = '\u2003' ∨ c = '\u2004' ∨
    c = '\u2005' ∨ c = '\u2006' ∨ c = '\u2007' ∨ c = '\u2008' ∨ c = '\u2009' ∨
    c = '\u200a' ∨ c = '\u2028' ∨ c = '\u2029' ∨ c = '\u202f' ∨ c = '\u205f' ∨
    c = '\u3000' := by
  simp only [isSpaceC] at h
  split at h
  · simp only [Bool.or_eq_true, decide_eq_true_eq, or_assoc] at h
    tauto
  · simp only [Bool.or_eq_true, decide_eq_true_eq, or_assoc] at h
    tauto

theorem space_not_digit {c : Char} (h : isSpaceC c = true) : isDigitC c = false := by
  rcases isSpaceC_elim h with h' | h' | h' | h' | h' | h' | h' | h' | h' | h' | h' | h' | h' | h' | h' | h' | h' | h' | h' | h' | h' | h' | h' | h' | h' | h' | h' | h' | h' <;> subst h' <;> decide

theorem space_ne_dot {c : Char} (h : isSpaceC c = true) : c ≠ '.' := by
  rcases isSpaceC_elim h with h' | h' | h' | h' | h' | h' | h' | h' | h' | h' | h' | h' | h' | h' | h' | h' | h' | h' | h' | h' | h' | h' | h' | h' | h' | h' | h' | h' | h' <;> subst h' <;> decide

theorem space_not_lower {c : Char} (h : isSpaceC c = true) : isLowerAZ c = false := by
  rcases isSpaceC_elim h with h' | h' | h' | h' | h' | h' | h' | h' | h' | h' | h' | h' | h' | h' | h' | h' | h' | h' | h' | h' | h' | h' | h' | h' | h' | h' | h' | h' | h' <;> subst h' <;> decide

theorem digit_not_space {c : Char} (h : isDigitC c = true) : isSpaceC c = false := by
  cases hs : isSpaceC c
  · rfl
  · rw [space_not_digit hs] at h; exact absurd h (by simp)

theorem digit_ne_pct {c : Char} (h : isDigitC c = true) : c ≠ '%' := by
  intro h'; subst h'; exact absurd h (by decide)

theorem digit_ne_dot {c : Char} (h : isDigitC c = true) : c ≠ '.' := by
  intro h'; subst h'; exact absurd h (by decide)

theorem digit_not_lower {c : Char} (h : isDigitC c = true) : isLowerAZ c = false := by
  cases hl : isLowerAZ c
  · rfl
  · exfalso
    simp only [isDigitC] at h
    simp only [isLowerAZ, Bool.and_eq_true, decide_eq_true_eq] at hl
    have h97 : (97 : UInt32).toNat ≤ c.val.toNat := hl.1
    have h122 : c.val.toNat ≤ (122 : UInt32).toNat := hl.2
    have e97 : (97 : UInt32).toNat = 97 := by decide
    have e122 : (122 : UInt32).toNat = 122 := by decide
    rw [e97] at h97
    rw [e122] at h122
    have hbr : c.toNat = c.val.toNat := rfl
    split at h <;>
      simp only [Bool.or_eq_true, Bool.and_eq_true, decide_eq_true_eq] at h <;> omega

theorem digitA_digit {c : Char} (h : isDigitA c = true) : isDigitC c = true := by
  simp only [isDigitA, Char.isDigit, Bool.and_eq_true, decide_eq_true_eq] at h
  have h48 : (48 : UInt32).toNat ≤ c.val.toNat := h.1
  have h57 : c.val.toNat ≤ (57 : UInt32).toNat := h.2
  have e48 : (48 : UInt32).toNat = 48 := by decide
  have e57 : (57 : UInt32).toNat = 57 := by decide
  rw [e48] at h48
  rw [e57] at h57
  have hbr : c.toNat = c.val.toNat := rfl
  simp only [isDigitC]
  rw [if_pos (by omega : c.toNat < 1632)]
  simp only [Bool.and_eq_true, decide_eq_true_eq]
  omega

theorem digitA_not_spaceA {c : Char} (h : isDigitA c = true) : isSpaceA c = false := by
  cases hs : isSpaceA c
  · rfl
  · exfalso
    simp only [isSpaceA, Bool.or_eq_true, decide_eq_true_eq, or_assoc] at hs
    rcases hs with h' | h' | h' | h' | h' | h' <;> subst h' <;> exact absurd h (by decide)

theorem all_mono {p q : Char → Bool} (h : ∀ c, p c = true → q c = true) :
    ∀ {l : List Char}, l.all p = true → l.all q = true := by
  intro l hl
  simp only [List.all_eq_true] at hl ⊢
  exact fun c hc => h c (hl c hc)

/-! ## Characterization of the percent-literal matcher -/

theorem head_not_of_all_space {ws v : List Char} {p : Char → Bool}
    (hws : ws.all isSpaceC = true) (hsp : ∀ c, isSpaceC c = true → p c = false)
    (hpct : p '%' = false) :
    ∀ c, (ws ++ '%' :: v).head? = some c → p c = false := by
  cases ws with
  | nil => intro c hc; simp only [List.nil_append, List.head?_cons,
      Option.some_inj] at hc; subst hc; exact hpct
  | cons w ws' =>
    intro c hc
    simp only [List.cons_append, List.head?_cons, Option.some_inj] at hc
    subst hc
    simp only [List.all_cons, Bool.and_eq_true] at hws
    exact hsp _ hws.1

theorem takeWhile_all_head {p : Char → Bool} {xs ys : List Char}
    (hx : xs.all p = true) (hy : ∀ c, ys.head? = some c → p c = false) :
    (xs ++ ys).takeWhile p = xs := by
  rw [takeWhile_append_of_all hx]
  cases ys with
  | nil => simp
  | cons b t =>
    have hb : ¬ p b = true := by simp [hy b rfl]
    rw [List.takeWhile_cons_of_neg hb, List.append_nil]

theorem dropWhile_all_head {p : Char → Bool} {xs ys : List Char}
    (hx : xs.all p = true) (hy : ∀ c, ys.head? = some c → p c = false) :
    (xs ++ ys).dropWhile p = ys := by
  rw [dropWhile_append_of_all hx]
  cases ys with
  | nil => simp
  | cons b t =>
    have hb : ¬ p b = true := by simp [hy b rfl]
    rw [List.dropWhile_cons_of_neg hb]

theorem dropWhile_eq_nil_of_all {p : Char → Bool} {xs : List Char}
    (hx : xs.all p = true) : xs.dropWhile p = [] := by
  have := dropWhile_append_of_all hx ([] : List Char)
  simpa using this

theorem matchPct_completeU {ds : List Char} {fso : Option (List Char)} {ws v : List Char}
    (hne : ds ≠ []) (hallU : ds.all isDigitC = true)
    (hfs : ∀ fs, fso = some fs → fs ≠ [] ∧ fs.all isDigitC = true)
    (hws : ws.all isSpaceC = true) :
    matchPct (litChars ds fso ++ ws ++ '%' :: v) = some (litChars ds fso, v) := by
  have hpctd : ∀ c, (ws ++ '%' :: v).head? = some c → isDigitC c = false :=
    head_not_of_all_space hws (fun _ h => space_not_digit h) (by decide)
  cases fso with
  | none =>
    have hl : litChars ds none ++ ws ++ '%' :: v = ds ++ (ws ++ '%' :: v) := by
      simp [litChars]
    rw [hl]
    have htw : (ds ++ (ws ++ '%' :: v)).takeWhile isDigitC = ds :=
      takeWhile_all_head hallU hpctd
    have hdw : (ds ++ (ws ++ '%' :: v)).dropWhile isDigitC = ws ++ '%' :: v :=
      dropWhile_all_head hallU hpctd
    have hdsp : (ws ++ '%' :: v).dropWhile isSpaceC = '%' :: v :=
      dropWhile_all_head hws (fun c hc => by
        simp only [List.head?_cons, Option.some_inj] at hc; subst hc; decide)
    simp only [matchPct, htw, hdw]
    rw [if_neg (by simp [hne])]
    cases ws with
    | nil => simp_all [litChars]
    | cons w ws' =>
      have hw : isSpaceC w = true := by
        simp only [List.all_cons, Bool.and_eq_true] at hws; exact hws.1
      rcases isSpaceC_elim hw with h' | h' | h' | h' | h' | h' | h' | h' | h' | h' | h' | h' | h' | h' | h' | h' | h' | h' | h' | h' | h' | h' | h' | h' | h' | h' | h' | h' | h' <;> subst h' <;>
        simp_all [litChars]
  | some fs =>
    obtain ⟨hfne, hfallU⟩ := hfs fs rfl
    have hl : litChars ds (some fs) ++ ws ++ '%' :: v
        = ds ++ ('.' :: (fs ++ (ws ++ '%' :: v))) := by
      simp [litChars]
    rw [hl]
    have hdotd : ∀ c, ('.' :: (fs ++ (ws ++ '%' :: v))).head? = some c →
        isDigitC c = false := by
      intro c hc
      simp only [List.head?_cons, Option.some_inj] at hc; subst hc; decide
    have htw : (ds ++ ('.' :: (fs ++ (ws ++ '%' :: v)))).takeWhile isDigitC = ds :=
      takeWhile_all_head hallU hdotd
    have hdw : (ds ++ ('.' :: (fs ++ (ws ++ '%' :: v)))).dropWhile isDigitC
        = '.' :: (fs ++ (ws ++ '%' :: v)) :=
      dropWhile_all_head hallU hdotd
    have htw2 : (fs ++ (ws ++ '%' :: v)).takeWhile isDigitC = fs :=
      takeWhile_all_head hfallU hpctd
    have hdw2 : (fs ++ (ws ++ '%' :: v)).dropWhile isDigitC = ws ++ '%' :: v :=
      dropWhile_all_head hfallU hpctd
    have hdsp : (ws ++ '%' :: v).dropWhile isSpaceC = '%' :: v :=
      dropWhile_all_head hws (fun c hc => by
        simp only [List.head?_cons, Option.some_inj] at hc; subst hc; decide)
    simp only [matchPct, htw, hdw, htw2, hdw2, hdsp]
    rw [if_neg (by simp [hne])]
    simp [litChars, hfne]

theorem matchPct_complete {ds : List Char} {fso : Option (List Char)} {ws v : List Char}
    (h : LitOK ds fso) (hws : ws.all isSpaceC = true) :
    matchPct (litChars ds fso ++ ws ++ '%' :: v) = some (litChars ds fso, v) :=
  matchPct_completeU h.1 (all_mono (fun c hc => digitA_digit hc) h.2.1)
    (fun fs hfso => ⟨(h.2.2 fs hfso).1,
      all_mono (fun c hc => digitA_digit hc) (h.2.2 fs hfso).2⟩) hws

theorem matchPct_sound {l lit rest : List Char}
    (h : matchPct l = some (lit, rest)) :
    ∃ ws, ws.all isSpaceC = true ∧ l = lit ++ ws ++ '%' :: rest ∧
      isLitB lit = true := by
  have hsplit : l = l.takeWhile isDigitC ++ l.dropWhile isDigitC :=
    (List.takeWhile_append_dropWhile isDigitC l).symm
  have hallds : (l.takeWhile isDigitC).all isDigitC = true := List.all_takeWhile
  simp only [matchPct] at h
  split at h
  · exact absurd h (by simp)
  · rename_i hne
    split at h
    · rename_i t ht
      split at h
      · exact absurd h (by simp)
      · rename_i hfne
        split at h
        · rename_i rest' hdsp
          simp only [Option.some_inj, Prod.mk.injEq] at h
          obtain ⟨hlit, hrest⟩ := h
          refine ⟨(t.dropWhile isDigitC).takeWhile isSpaceC, List.all_takeWhile, ?_, ?_⟩
          · have ht2 : t.dropWhile isDigitC
                = (t.dropWhile isDigitC).takeWhile isSpaceC ++ '%' :: rest' := by
              conv_lhs => rw [← List.takeWhile_append_dropWhile isSpaceC
                (t.dropWhile isDigitC)]
              rw [hdsp]
            have htt : t = t.takeWhile isDigitC ++ t.dropWhile isDigitC :=
              (List.takeWhile_append_dropWhile isDigitC t).symm
            rw [← hlit, ← hrest]
            conv_lhs => rw [hsplit, ht, htt, ht2]
            simp
          · rw [← hlit]
            have hdot : ∀ c, ('.' :: t.dropWhile isDigitC).head? = some c →
                isDigitC c = false := by
              intro c hc
              simp only [List.head?_cons, Option.some_inj] at hc; subst hc; decide
            have hlit2 : l.takeWhile isDigitC ++ '.' :: t.takeWhile isDigitC
                = l.takeWhile isDigitC ++
                  ('.' :: t.takeWhile isDigitC ++ []) := by simp
            have htw : (l.takeWhile isDigitC ++ '.' :: t.takeWhile isDigitC).takeWhile
                isDigitC = l.takeWhile isDigitC := by
              apply takeWhile_all_head hallds
              intro c hc
              simp only [List.head?_cons, Option.some_inj] at hc; subst hc; decide
            have hdw : (l.takeWhile isDigitC ++ '.' :: t.takeWhile isDigitC).dropWhile
                isDigitC = '.' :: t.takeWhile isDigitC := by
              apply dropWhile_all_head hallds
              intro c hc
              simp only [List.head?_cons, Option.some_inj] at hc; subst hc; decide
            simp only [isLitB, htw, hdw]
            simp only [Bool.and_eq_true, Bool.not_eq_eq_eq_not, Bool.not_true,
              Bool.not_eq_true']
            refine ⟨⟨by simpa using hne, by simpa using hfne⟩, List.all_takeWhile⟩
        · exact absurd h (by simp)
    · split at h
      · rename_i rest' hdsp
        simp only [Option.some_inj, Prod.mk.injEq] at h
        obtain ⟨hlit, hrest⟩ := h
        refine ⟨(l.dropWhile isDigitC).takeWhile isSpaceC, List.all_takeWhile, ?_, ?_⟩
        · have ht2 : l.dropWhile isDigitC
              = (l.dropWhile isDigitC).takeWhile isSpaceC ++ '%' :: rest' := by
            conv_lhs => rw [← List.takeWhile_append_dropWhile isSpaceC
              (l.dropWhile isDigitC)]
            rw [hdsp]
          rw [← hlit, ← hrest]
          conv_lhs => rw [hsplit, ht2]
          simp
        · rw [← hlit]
          simp only [isLitB, List.takeWhile_idem,
            dropWhile_eq_nil_of_all hallds]
          simpa using hne
      · exact absurd h (by simp)

theorem isLitB_last {lit : List Char} (h : isLitB lit = true) :
    ∃ u d, lit = u ++ [d] ∧ isDigitC d = true := by
  have hsplit : lit = lit.takeWhile isDigitC ++ lit.dropWhile isDigitC :=
    (List.takeWhile_append_dropWhile isDigitC lit).symm
  have hallds : (lit.takeWhile isDigitC).all isDigitC = true := List.all_takeWhile
  simp only [isLitB] at h
  split at h
  · rename_i hdw
    rcases List.eq_nil_or_concat (lit.takeWhile isDigitC) with hnil | ⟨u, d, hu⟩
    · rw [hnil] at h; exact absurd h (by simp)
    · refine ⟨u, d, ?_, ?_⟩
      · conv_lhs => rw [hsplit, hdw, hu]
        simp
      · have : d ∈ lit.takeWhile isDigitC := by rw [hu]; simp
        exact (List.all_eq_true.mp hallds) d this
  · rename_i t hdw
    simp only [Bool.and_eq_true] at h
    rcases List.eq_nil_or_concat t with hnil | ⟨u, d, hu⟩
    · rw [hnil] at h; exact absurd h.1.2 (by simp)
    · refine ⟨lit.takeWhile isDigitC ++ '.' :: u, d, ?_, ?_⟩
      · conv_lhs => rw [hsplit, hdw, hu]
        simp
      · have : d ∈ t := by rw [hu]; simp
        exact (List.all_eq_true.mp h.2) d this
  · exact absurd h (by simp)

theorem isLitB_ne_nil {lit : List Char} (h : isLitB lit = true) : lit ≠ [] := by
  obtain ⟨u, d, hu, -⟩ := isLitB_last h
  subst hu
  simp

theorem matchPct_length {l lit rest : List Char}
    (h : matchPct l = some (lit, rest)) : rest.length + 2 ≤ l.length := by
  obtain ⟨ws, -, hl, hlit⟩ := matchPct_sound h
  have : lit.length ≠ 0 := by
    intro h0
    exact isLitB_ne_nil hlit (List.length_eq_zero.mp h0)
  subst hl
  simp only [List.length_append, List.length_cons]
  omega

theorem pctSubF_nil (f : ℕ) : pctSubF f [] = [] := by
  cases f <;> rfl

theorem pctSubF_stable {f g : ℕ} :
    ∀ {l : List Char}, l.length ≤ f → l.length ≤ g → pctSubF f l = pctSubF g l := by
  induction f using Nat.strong_induction_on generalizing g with
  | _ f ih =>
    intro l hf hg
    match f, g, l with
    | f, g, [] => rw [pctSubF_nil, pctSubF_nil]
    | 0, _, c :: rest => simp at hf
    | _ + 1, 0, c :: rest => simp at hg
    | f' + 1, g' + 1, c :: rest =>
      simp only [pctSubF]
      match hm : matchPct (c :: rest) with
      | some (lit, rest') =>
        have hlen := matchPct_length hm
        simp only [List.length_cons] at hf hg hlen
        show '(' :: (lit ++ '/' :: '1' :: '0' :: '0' :: ')' :: pctSubF f' rest')
          = '(' :: (lit ++ '/' :: '1' :: '0' :: '0' :: ')' :: pctSubF g' rest')
        rw [ih f' (by omega) (by omega) (by omega : rest'.length ≤ g')]
      | none =>
        simp only [List.length_cons] at hf hg
        show c :: pctSubF f' rest = c :: pctSubF g' rest
        rw [ih f' (by omega) (by omega) (by omega : rest.length ≤ g')]

/-- Unfolding equation for `pctSub` at a cons cell. -/
theorem pctSub_cons (c : Char) (rest : List Char) :
    pctSub (c :: rest) =
      match matchPct (c :: rest) with
      | some (lit, rest') =>
        '(' :: (lit ++ '/' :: '1' :: '0' :: '0' :: ')' :: pctSub rest')
      | none => c :: pctSub rest := by
  show pctSubF (c :: rest).length (c :: rest) = _
  simp only [List.length_cons, pctSubF]
  match hm : matchPct (c :: rest) with
  | some (lit, rest') =>
    have hlen := matchPct_length hm
    simp only [List.length_cons] at hlen
    show '(' :: (lit ++ '/' :: '1' :: '0' :: '0' :: ')' :: pctSubF rest.length rest')
      = '(' :: (lit ++ '/' :: '1' :: '0' :: '0' :: ')' :: pctSub rest')
    rw [pctSubF_stable (by omega : rest'.length ≤ rest.length) (le_refl rest'.length)]
    rfl
  | none => rfl

theorem wsThenPct_cons_false {c : Char} {r : List Char}
    (h1 : isSpaceC c = false) (h2 : c ≠ '%') : wsThenPct (c :: r) = false := by
  simp [wsThenPct, h1, h2]

theorem wsThenPct_of_ws_pct {ws : List Char} (v : List Char)
    (hws : ws.all isSpaceC = true) : wsThenPct (ws ++ '%' :: v) = true := by
  induction ws with
  | nil => simp [wsThenPct]
  | cons w t ih =>
    simp only [List.all_cons, Bool.and_eq_true] at hws
    simp [wsThenPct, hws.1, ih hws.2]

theorem wsThenPct_elim {r : List Char} (h : wsThenPct r = true) :
    ∃ ws v, r = ws ++ '%' :: v ∧ ws.all isSpaceC = true := by
  induction r with
  | nil => simp [wsThenPct] at h
  | cons c t ih =>
    simp only [wsThenPct, Bool.or_eq_true, Bool.and_eq_true] at h
    rcases h with h | ⟨hc, ht⟩
    · simp only [decide_eq_true_eq] at h
      exact ⟨[], t, by simp [h], by simp⟩
    · obtain ⟨ws, v, hsplit, hall⟩ := ih ht
      exact ⟨c :: ws, v, by simp [hsplit], by simp [hc, hall]⟩

theorem hasDWP_append_redex (u : List Char) {d : Char} {w : List Char}
    (v : List Char) (hd : isDigitC d = true) (hw : w.all isSpaceC = true) :
    hasDWP (u ++ d :: (w ++ '%' :: v)) = true := by
  induction u with
  | nil =>
    simp only [List.nil_append, hasDWP, Bool.or_eq_true, Bool.and_eq_true]
    exact Or.inl ⟨hd, wsThenPct_of_ws_pct v hw⟩
  | cons a t ih =>
    simp only [List.cons_append, hasDWP, Bool.or_eq_true]
    exact Or.inr ih

theorem isLitB_chars {lit : List Char} (h : isLitB lit = true) :
    lit.all (fun c => isDigitC c || c = '.') = true := by
  have hsplit : lit = lit.takeWhile isDigitC ++ lit.dropWhile isDigitC :=
    (List.takeWhile_append_dropWhile isDigitC lit).symm
  have hallds : (lit.takeWhile isDigitC).all isDigitC = true := List.all_takeWhile
  simp only [isLitB] at h
  split at h
  · rename_i hdw
    conv_lhs => rw [hsplit, hdw]
    simp only [List.append_nil, List.all_eq_true] at hallds ⊢
    intro c hc
    simp [hallds c hc]
  · rename_i t hdw
    simp only [Bool.and_eq_true] at h
    conv_lhs => rw [hsplit, hdw]
    simp only [List.all_append, List.all_cons, Bool.and_eq_true,
      List.all_eq_true] at hallds h ⊢
    refine ⟨fun c hc => by simp [hallds c hc], by simp, fun c hc => by simp [h.2 c hc]⟩
  · exact absurd h (by simp)

theorem matchPct_some_hasDWP {l : List Char} {p : List Char × List Char}
    (h : matchPct l = some p) : hasDWP l = true := by
  obtain ⟨ws, hws, hl, hlit⟩ := matchPct_sound h
  obtain ⟨u, d, hu, hd⟩ := isLitB_last hlit
  subst hl
  rw [hu]
  have : (u ++ [d]) ++ ws ++ '%' :: p.2 = u ++ d :: (ws ++ '%' :: p.2) := by simp
  rw [this]
  exact hasDWP_append_redex u p.2 hd hws

theorem hasDWP_cons_elim {c : Char} {r : List Char}
    (h : hasDWP (c :: r) = false) :
    (isDigitC c && wsThenPct r) = false ∧ hasDWP r = false := by
  simp only [hasDWP, Bool.or_eq_false_iff] at h
  exact h

/-- If the percent regex has no match anywhere in the string, the percent
substitution leaves the string unchanged. -/
theorem pctSubF_id_of_not_hasDWP {f : ℕ} :
    ∀ {l : List Char}, l.length ≤ f → hasDWP l = false → pctSubF f l = l := by
  induction f with
  | zero => intro l _ _; rfl
  | succ f ih =>
    intro l hlen hdwp
    match l with
    | [] => rfl
    | c :: rest =>
      simp only [pctSubF]
      match hm : matchPct (c :: rest) with
      | some p => rw [matchPct_some_hasDWP hm] at hdwp; exact absurd hdwp (by simp)
      | none =>
        simp only [List.length_cons] at hlen
        rw [ih (by omega) (hasDWP_cons_elim hdwp).2]

theorem isLitB_head {lit : List Char} (h : isLitB lit = true) :
    ∃ d t, lit = d :: t ∧ isDigitC d = true := by
  have hsplit : lit = lit.takeWhile isDigitC ++ lit.dropWhile isDigitC :=
    (List.takeWhile_append_dropWhile isDigitC lit).symm
  have hallds : (lit.takeWhile isDigitC).all isDigitC = true := List.all_takeWhile
  have hne : (lit.takeWhile isDigitC).isEmpty = false := by
    simp only [isLitB] at h
    split at h
    · simpa using h
    · simp only [Bool.and_eq_true] at h
      simpa using h.1.1
    · exact absurd h (by simp)
  match hds : lit.takeWhile isDigitC with
  | [] => rw [hds] at hne; exact absurd hne (by simp)
  | d :: t' =>
    refine ⟨d, t' ++ lit.dropWhile isDigitC, ?_, ?_⟩
    · conv_lhs => rw [hsplit, hds]
      simp
    · rw [hds] at hallds
      simp only [List.all_cons, Bool.and_eq_true] at hallds
      exact hallds.1

theorem wsThenPct_pctSubF {f : ℕ} :
    ∀ {l : List Char}, l.length ≤ f → wsThenPct (pctSubF f l) = wsThenPct l := by
  induction f with
  | zero => intro l _; rfl
  | succ f ih =>
    intro l hlen
    match l with
    | [] => rfl
    | c :: rest =>
      simp only [pctSubF]
      match hm : matchPct (c :: rest) with
      | some (lit, rest') =>
        obtain ⟨ws, hws, hl, hlit⟩ := matchPct_sound hm
        obtain ⟨d, t, hdt, hd⟩ := isLitB_head hlit
        have hc : c = d := by
          rw [hdt] at hl
          simpa using congrArg List.head? hl
        rw [wsThenPct_cons_false (by decide) (by decide),
          wsThenPct_cons_false (hc ▸ digit_not_space hd) (hc ▸ digit_ne_pct hd)]
      | none =>
        simp only [List.length_cons] at hlen
        simp [wsThenPct, ih (by omega : rest.length ≤ f)]

theorem wsThenPct_litchar_head {x : Char} (rest : List Char)
    (h : (isDigitC x || x = '.') = true) : wsThenPct (x :: rest) = false := by
  rcases Bool.or_eq_true _ _ |>.mp h with h | h
  · exact wsThenPct_cons_false (digit_not_space h) (digit_ne_pct h)
  · simp only [decide_eq_true_eq] at h
    subst h
    exact wsThenPct_cons_false (by decide) (by decide)

theorem hasDWP_inner_block {lit : List Char} {z : List Char}
    (hlit : lit.all (fun c => isDigitC c || c = '.') = true)
    (hz : hasDWP z = false) :
    hasDWP (lit ++ '/' :: '1' :: '0' :: '0' :: ')' :: z) = false := by
  induction lit with
  | nil =>
    simp only [List.nil_append, hasDWP]
    rw [wsThenPct_cons_false (by decide) (by decide),
      wsThenPct_cons_false (by decide) (by decide),
      wsThenPct_cons_false (by decide) (by decide),
      wsThenPct_cons_false (by decide) (by decide)]
    simp +decide [hz]
  | cons c t ih =>
    simp only [List.all_cons, Bool.and_eq_true] at hlit
    have hih := ih hlit.2
    simp only [List.cons_append, hasDWP, Bool.or_eq_false_iff, Bool.and_eq_false_iff]
    refine ⟨?_, hih⟩
    match t with
    | [] => exact Or.inr (wsThenPct_cons_false (by decide) (by decide))
    | x :: t' =>
      have hx : (isDigitC x || x = '.') = true := by
        simp only [List.all_cons, Bool.and_eq_true] at hlit
        exact hlit.2.1
      exact Or.inr (wsThenPct_litchar_head _ hx)

theorem hasDWP_pctSubF {f : ℕ} :
    ∀ {l : List Char}, l.length ≤ f → hasDWP (pctSubF f l) = false := by
  induction f with
  | zero =>
    intro l hlen
    have : l = [] := List.length_eq_zero.mp (Nat.le_zero.mp hlen)
    subst this
    rfl
  | succ f ih =>
    intro l hlen
    match l with
    | [] => rfl
    | c :: rest =>
      simp only [pctSubF]
      match hm : matchPct (c :: rest) with
      | some (lit, rest') =>
        have hlen' := matchPct_length hm
        simp only [List.length_cons] at hlen hlen'
        have hz : hasDWP (pctSubF f rest') = false := ih (by omega)
        obtain ⟨ws0, hws0, hl0, hlit0⟩ := matchPct_sound hm
        have hblock := hasDWP_inner_block (isLitB_chars hlit0) hz
        simp only [hasDWP, hblock, Bool.or_eq_false_iff, Bool.and_eq_false_iff]
        exact ⟨Or.inl (by decide), trivial⟩
      | none =>
        simp only [List.length_cons] at hlen
        have hz : hasDWP (pctSubF f rest) = false := ih (by omega)
        simp only [hasDWP, hz, Bool.or_eq_false_iff, Bool.and_eq_false_iff]
        refine ⟨?_, trivial⟩
        by_cases hc : isDigitC c = true
        · right
          rw [wsThenPct_pctSubF (by omega : rest.length ≤ f)]
          by_contra hw
          rw [Bool.not_eq_false] at hw
          obtain ⟨ws, v, hrest, hws⟩ := wsThenPct_elim hw
          have : matchPct (c :: rest) = some (litChars [c] none, v) := by
            have hshape : c :: rest = litChars [c] none ++ ws ++ '%' :: v := by
              simp [litChars, hrest]
            rw [hshape]
            exact matchPct_completeU (by simp) (by simp [hc]) (by simp) hws
          rw [this] at hm
          exact absurd hm (by simp)
        · exact Or.inl (by simpa using hc)

/-! ## Generic lemmas about the pair substitutions -/

theorem pairList_ind (P : List Char → Prop) (h0 : P []) (h1 : ∀ a, P [a])
    (h2 : ∀ a b rest, P rest → P (b :: rest) → P (a :: b :: rest)) :
    ∀ l, P l := by
  have key : ∀ n (l : List Char), l.length ≤ n → P l := by
    intro n
    induction n with
    | zero =>
      intro l h
      rw [List.length_eq_zero.mp (Nat.le_zero.mp h)]
      exact h0
    | succ n ih =>
      intro l h
      match l with
      | [] => exact h0
      | [a] => exact h1 a
      | a :: b :: rest =>
        simp only [List.length_cons] at h
        exact h2 a b rest (ih rest (by omega)) (ih (b :: rest) (by simp; omega))
  exact fun l => key l.length l (le_refl _)

theorem pairSub_head? (p1 p2 : Char → Bool) (l : List Char) :
    (pairSub p1 p2 l).head? = l.head? := by
  match l with
  | [] => rfl
  | [a] => rfl
  | a :: b :: rest =>
    simp only [pairSub]
    split <;> rfl

theorem hasPair_pairSub_self {p1 p2 : Char → Bool}
    (hdisj : ∀ c, p2 c = true → p1 c = false)
    (hs1 : p1 '*' = false) (hs2 : p2 '*' = false) :
    ∀ l, hasPair p1 p2 (pairSub p1 p2 l) = false := by
  apply pairList_ind (fun l => hasPair p1 p2 (pairSub p1 p2 l) = false)
  · rfl
  · intro a; rfl
  · intro a b rest Prest Pbrest
    simp only [pairSub]
    by_cases hab : (p1 a && p2 b) = true
    · rw [if_pos hab]
      rcases Bool.and_eq_true _ _ |>.mp hab with ⟨ha1, hb2⟩
      simp only [hasPair, List.head?_cons, hs2, hs1, Bool.and_false, Bool.false_and,
        Bool.false_or, pairSub_head?]
      rw [hdisj b hb2]
      simp only [Bool.false_and, Bool.false_or]
      have : (match rest.head? with
          | some c => p1 b && p2 c
          | none => false) = false := by
        match rest with
        | [] => rfl
        | x :: t => simp [hdisj b hb2]
      simp only [Prest]
      match rest with
      | [] => simp
      | x :: t => simp [hdisj b hb2]
    · rw [if_neg hab]
      simp only [hasPair, pairSub_head?, List.head?_cons]
      rw [Pbrest]
      simpa using hab
  -- done

theorem pairSub_id {p1 p2 : Char → Bool} :
    ∀ l, hasPair p1 p2 l = false → pairSub p1 p2 l = l := by
  apply pairList_ind (fun l => hasPair p1 p2 l = false → pairSub p1 p2 l = l)
  · intro _; rfl
  · intro a _; rfl
  · intro a b rest _ Pbrest hfree
    simp only [hasPair, List.head?_cons, Bool.or_eq_false_iff] at hfree
    have hb : hasPair p1 p2 (b :: rest) = false := by
      simp only [hasPair, Bool.or_eq_false_iff]
      exact hfree.2
    have hcond : ¬ ((p1 a && p2 b) = true) := by simp [hfree.1]
    simp only [pairSub]
    rw [if_neg hcond, Pbrest hb]

theorem hasPair_pairSub_other {p1 p2 q1 q2 : Char → Bool}
    (hq1 : q1 '*' = false) (hq2 : q2 '*' = false) :
    ∀ l, hasPair q1 q2 l = false → hasPair q1 q2 (pairSub p1 p2 l) = false := by
  apply pairList_ind
    (fun l => hasPair q1 q2 l = false → hasPair q1 q2 (pairSub p1 p2 l) = false)
  · intro _; rfl
  · intro a h; exact h
  · intro a b rest Prest Pbrest hfree
    simp only [hasPair, List.head?_cons, Bool.or_eq_false_iff] at hfree
    obtain ⟨hfree1, hfree4, hfree3⟩ := hfree
    have hfree2 : hasPair q1 q2 (b :: rest) = false := by
      simp only [hasPair, Bool.or_eq_false_iff]
      exact ⟨hfree4, hfree3⟩
    simp only [pairSub]
    by_cases hab : (p1 a && p2 b) = true
    · rw [if_pos hab]
      simp only [hasPair, List.head?_cons, hq2, hq1, Bool.and_false, Bool.false_and,
        Bool.false_or, pairSub_head?]
      rw [Prest hfree3]
      simp only [Bool.or_eq_false_iff]
      exact ⟨hfree4, trivial⟩
    · rw [if_neg hab]
      simp only [hasPair, pairSub_head?, List.head?_cons]
      rw [Pbrest hfree2]
      simp [hfree1]

theorem wsThenPct_pairSub {p1 p2 : Char → Bool}
    (h1 : ∀ c, p1 c = true → isSpaceC c = false ∧ c ≠ '%') :
    ∀ l, wsThenPct (pairSub p1 p2 l) = wsThenPct l := by
  apply pairList_ind (fun l => wsThenPct (pairSub p1 p2 l) = wsThenPct l)
  · rfl
  · intro a; rfl
  · intro a b rest _ Pbrest
    simp only [pairSub]
    by_cases hab : (p1 a && p2 b) = true
    · rw [if_pos hab]
      rcases Bool.and_eq_true _ _ |>.mp hab with ⟨ha1, _⟩
      obtain ⟨hsp, hpc⟩ := h1 a ha1
      rw [wsThenPct_cons_false hsp hpc, wsThenPct_cons_false hsp hpc]
    · rw [if_neg hab]
      simp only [wsThenPct, Pbrest]

theorem hasDWP_pairSub {p1 p2 : Char → Bool}
    (h1 : ∀ c, p1 c = true → isSpaceC c = false ∧ c ≠ '%') :
    ∀ l, hasDWP l = false → hasDWP (pairSub p1 p2 l) = false := by
  apply pairList_ind (fun l => hasDWP l = false → hasDWP (pairSub p1 p2 l) = false)
  · intro _; rfl
  · intro a h; exact h
  · intro a b rest Prest Pbrest hfree
    simp only [hasDWP, Bool.or_eq_false_iff, Bool.and_eq_false_iff] at hfree
    obtain ⟨hfree1, hfree2, hfree3⟩ := hfree
    have hfreeb : hasDWP (b :: rest) = false := by
      simp only [hasDWP, Bool.or_eq_false_iff, Bool.and_eq_false_iff]
      exact ⟨hfree2, hfree3⟩
    simp only [pairSub]
    by_cases hab : (p1 a && p2 b) = true
    · rw [if_pos hab]
      simp only [hasDWP, Bool.or_eq_false_iff, Bool.and_eq_false_iff]
      refine ⟨?_, ?_, ?_, Prest hfree3⟩
      · right; exact wsThenPct_cons_false (by decide) (by decide)
      · left; decide
      · rw [wsThenPct_pairSub h1 rest]
        exact hfree2
    · rw [if_neg hab]
      simp only [hasDWP, Bool.or_eq_false_iff, Bool.and_eq_false_iff]
      have : wsThenPct (pairSub p1 p2 (b :: rest)) = wsThenPct (b :: rest) :=
        wsThenPct_pairSub h1 (b :: rest)
      rw [this]
      refine ⟨?_, Pbrest hfreeb⟩
      exact hfree1

/-! ## Whitespace edges and `strip` -/

theorem head?_dropWhile_false {p : Char → Bool} {l : List Char} {c : Char}
    (h : (l.dropWhile p).head? = some c) : p c = false := by
  have := List.head?_dropWhile_not p l
  rw [h] at this
  exact this

theorem dropWhile_getLast? {p : Char → Bool} {l : List Char}
    (h : l.dropWhile p ≠ []) : (l.dropWhile p).getLast? = l.getLast? := by
  conv_rhs => rw [← List.takeWhile_append_dropWhile p l]
  rw [List.getLast?_append]
  have : ∃ c, (l.dropWhile p).getLast? = some c := by
    match hd : l.dropWhile p with
    | [] => exact absurd hd h
    | a :: t => exact ⟨(a :: t).getLast (by simp), List.getLast?_eq_getLast _ _⟩
  obtain ⟨c, hc⟩ := this
  rw [hc]
  rfl

theorem getLast?_cons_of_ne_nil {c : Char} {t : List Char} (h : t ≠ []) :
    (c :: t).getLast? = t.getLast? := by
  match t with
  | [] => exact absurd rfl h
  | a :: t' => exact List.getLast?_cons_cons

theorem getLast?_append_right {s t : List Char} (h : t ≠ []) :
    (s ++ t).getLast? = t.getLast? := by
  rw [List.getLast?_append]
  have : ∃ c, t.getLast? = some c := by
    match t, h with
    | a :: t', _ => exact ⟨(a :: t').getLast (by simp), List.getLast?_eq_getLast _ _⟩
  obtain ⟨c, hc⟩ := this
  rw [hc]
  rfl

theorem stripChars_noWsEdge (l : List Char) : noWsEdge (stripChars l) := by
  constructor
  · intro c hc
    simp only [stripChars] at hc
    rw [List.head?_reverse] at hc
    have hne : (l.dropWhile isSpaceC).reverse.dropWhile isSpaceC ≠ [] := by
      intro h0
      rw [h0] at hc
      simp at hc
    rw [dropWhile_getLast? hne, List.getLast?_reverse] at hc
    exact head?_dropWhile_false hc
  · intro c hc
    simp only [stripChars] at hc
    rw [List.getLast?_reverse] at hc
    exact head?_dropWhile_false hc

theorem stripChars_id_of_noWsEdge {l : List Char} (h : noWsEdge l) :
    stripChars l = l := by
  obtain ⟨hh, hl⟩ := h
  have hA : l.dropWhile isSpaceC = l := by
    match l with
    | [] => rfl
    | c :: t => exact List.dropWhile_cons_of_neg (by simp [hh c rfl])
  have hB : l.reverse.dropWhile isSpaceC = l.reverse := by
    match hr : l.reverse with
    | [] => rfl
    | c :: t =>
      have : l.getLast? = some c := by rw [← List.head?_reverse, hr]; simp
      exact List.dropWhile_cons_of_neg (by simp [hl c this])
  simp only [stripChars, hA, hB, List.reverse_reverse]

theorem pctSubF_ne_nil {f : ℕ} {l : List Char} (h : l ≠ []) :
    pctSubF f l ≠ [] := by
  match f, l with
  | 0, l => exact h
  | _ + 1, c :: rest =>
    simp only [pctSubF]
    match matchPct (c :: rest) with
    | some (lit, rest') => simp
    | none => simp

theorem pairSub_ne_nil {p1 p2 : Char → Bool} {l : List Char} (h : l ≠ []) :
    pairSub p1 p2 l ≠ [] := by
  match l with
  | [a] => simp [pairSub]
  | a :: b :: rest =>
    simp only [pairSub]
    split <;> simp

theorem pctSubF_head_nonws {f : ℕ} {l : List Char}
    (h : ∀ c, l.head? = some c → isSpaceC c = false) :
    ∀ c, (pctSubF f l).head? = some c → isSpaceC c = false := by
  match f, l with
  | 0, l => exact h
  | _ + 1, [] => intro c hc; simp [pctSubF] at hc
  | _ + 1, c0 :: rest =>
    simp only [pctSubF]
    match matchPct (c0 :: rest) with
    | some (lit, rest') =>
      intro c hc
      simp only [List.head?_cons, Option.some_inj] at hc
      rw [← hc]
      decide
    | none =>
      intro c hc
      simp only [List.head?_cons, Option.some_inj] at hc
      rw [← hc]
      exact h c0 rfl

theorem pairSub_head_nonws {p1 p2 : Char → Bool} {l : List Char}
    (h : ∀ c, l.head? = some c → isSpaceC c = false) :
    ∀ c, (pairSub p1 p2 l).head? = some c → isSpaceC c = false := by
  intro c hc
  rw [pairSub_head? p1 p2 l] at hc
  exact h c hc

theorem pctSubF_last_nonws {f : ℕ} :
    ∀ {l : List Char}, l.length ≤ f →
      (∀ c, l.getLast? = some c → isSpaceC c = false) →
      ∀ c, (pctSubF f l).getLast? = some c → isSpaceC c = false := by
  induction f with
  | zero => intro l _ h; exact h
  | succ f ih =>
    intro l hlen h
    match l with
    | [] => intro c hc; simp [pctSubF_nil] at hc
    | c0 :: rest =>
      simp only [pctSubF]
      match hm : matchPct (c0 :: rest) with
      | some (lit, rest') =>
        have hlen' := matchPct_length hm
        simp only [List.length_cons] at hlen hlen'
        intro c hc
        have hc2 : (('(' :: lit ++ ['/', '1', '0', '0']) ++
            ')' :: pctSubF f rest').getLast? = some c := by
          have hre : ('(' :: lit ++ ['/', '1', '0', '0']) ++ ')' :: pctSubF f rest'
              = '(' :: (lit ++ '/' :: '1' :: '0' :: '0' :: ')' :: pctSubF f rest') := by
            simp
          rw [hre]
          exact hc
        clear hc
        rw [getLast?_append_right (by simp)] at hc2
        rename' hc2 => hc
        match hz : pctSubF f rest' with
        | [] =>
          rw [hz] at hc
          simp only [List.getLast?_singleton, Option.some_inj] at hc
          subst hc
          decide
        | z0 :: zt =>
          rw [hz, getLast?_cons_of_ne_nil (by simp)] at hc
          rw [← hz] at hc
          have hrest' : ∀ c, rest'.getLast? = some c → isSpaceC c = false := by
            intro c' hc'
            obtain ⟨ws, hws, hl0, hlit0⟩ := matchPct_sound hm
            have hrne : rest' ≠ [] := by
              intro h0
              rw [h0] at hc'
              simp at hc'
            apply h c'
            rw [hl0, List.append_assoc, getLast?_append_right (by simp),
              getLast?_append_right (by simp), getLast?_cons_of_ne_nil hrne]
            exact hc'
          exact ih (by omega) hrest' c hc
      | none =>
        intro c hc
        match hz : pctSubF f rest with
        | [] =>
          rw [hz] at hc
          simp only [List.getLast?_singleton, Option.some_inj] at hc
          have hrnil : rest = [] := by
            by_contra h0
            exact pctSubF_ne_nil h0 hz
          rw [← hc]
          apply h c0
          rw [hrnil]
          simp
        | z0 :: zt =>
          rw [hz, getLast?_cons_of_ne_nil (by simp), ← hz] at hc
          simp only [List.length_cons] at hlen
          have hrne : rest ≠ [] := by
            intro h0
            rw [h0, pctSubF_nil] at hz
            simp at hz
          have hrest : ∀ c, rest.getLast? = some c → isSpaceC c = false := by
            intro c' hc'
            apply h c'
            rw [getLast?_cons_of_ne_nil hrne]
            exact hc'
          exact ih (by omega) hrest c hc

theorem pairSub_last_nonws {p1 p2 : Char → Bool} :
    ∀ l, (∀ c, l.getLast? = some c → isSpaceC c = false) →
      ∀ c, (pairSub p1 p2 l).getLast? = some c → isSpaceC c = false := by
  apply pairList_ind (fun l => (∀ c, l.getLast? = some c → isSpaceC c = false) →
    ∀ c, (pairSub p1 p2 l).getLast? = some c → isSpaceC c = false)
  · intro h; exact h
  · intro a h; exact h
  · intro a b rest Prest Pbrest h
    simp only [pairSub]
    by_cases hab : (p1 a && p2 b) = true
    · rw [if_pos hab]
      intro c hc
      match hz : pairSub p1 p2 rest with
      | [] =>
        have hrnil : rest = [] := by
          by_contra h0
          exact pairSub_ne_nil h0 hz
        rw [hz] at hc
        simp only [List.getLast?_cons_cons, List.getLast?_singleton,
          Option.some_inj] at hc
        rw [← hc]
        apply h b
        rw [hrnil]
        simp
      | z0 :: zt =>
        rw [hz, List.getLast?_cons_cons, List.getLast?_cons_cons,
          getLast?_cons_of_ne_nil (by simp), ← hz] at hc
        have hrne : rest ≠ [] := by
          intro h0
          rw [h0] at hz
          simp [pairSub] at hz
        have hrest : ∀ c, rest.getLast? = some c → isSpaceC c = false := by
          intro c' hc'
          apply h c'
          rw [List.getLast?_cons_cons, getLast?_cons_of_ne_nil hrne]
          exact hc'
        exact Prest hrest c hc
    · rw [if_neg hab]
      intro c hc
      have hbne : pairSub p1 p2 (b :: rest) ≠ [] := pairSub_ne_nil (by simp)
      rw [getLast?_cons_of_ne_nil hbne] at hc
      have hbrest : ∀ c, (b :: rest).getLast? = some c → isSpaceC c = false := by
        intro c' hc'
        apply h c'
        rw [getLast?_cons_of_ne_nil (by simp)]
        exact hc'
      exact Pbrest hbrest c hc

/-! ## Idempotence of the preprocessing pipeline -/

theorem lower_not_digit {c : Char} (h : isLowerAZ c = true) : isDigitC c = false := by
  cases hd : isDigitC c
  · rfl
  · rw [digit_not_lower hd] at h
    exact absurd h (by simp)

theorem digit_nospace_nopct : ∀ c, isDigitC c = true → isSpaceC c = false ∧ c ≠ '%' :=
  fun _ h => ⟨digit_not_space h, digit_ne_pct h⟩

theorem rparen_nospace_nopct :
    ∀ c : Char, (decide (c = ')')) = true → isSpaceC c = false ∧ c ≠ '%' := by
  intro c h
  simp only [decide_eq_true_eq] at h
  subst h
  exact ⟨by decide, by decide⟩

theorem lparen_not_digit : ∀ c : Char, (decide (c = '(')) = true → isDigitC c = false := by
  intro c h
  simp only [decide_eq_true_eq] at h
  subst h
  decide

theorem digit_not_rparen : ∀ c : Char, isDigitC c = true → (decide (c = ')')) = false := by
  intro c h
  cases hb : decide (c = ')')
  · rfl
  · simp only [decide_eq_true_eq] at hb
    subst hb
    exact absurd h (by decide)

theorem lparen_not_rparen : ∀ c : Char, (decide (c = '(')) = true →
    (decide (c = ')')) = false := by
  intro c h
  simp only [decide_eq_true_eq] at h
  subst h
  decide

theorem noWsEdge_preprocessL (l : List Char) : noWsEdge (preprocessL l) := by
  obtain ⟨hh0, hl0⟩ := stripChars_noWsEdge l
  have hh1 := @pctSubF_head_nonws ((stripChars l).length) _ hh0
  have hl1 := pctSubF_last_nonws (le_refl (stripChars l).length) hl0
  have hh2 := @pairSub_head_nonws isDigitC isLowerAZ _ hh1
  have hl2 := @pairSub_last_nonws isDigitC isLowerAZ _ hl1
  have hh3 := @pairSub_head_nonws isDigitC (fun c => c = '(') _ hh2
  have hl3 := @pairSub_last_nonws isDigitC (fun c => c = '(') _ hl2
  have hh4 := @pairSub_head_nonws (fun c => c = ')') isDigitC _ hh3
  have hl4 := @pairSub_last_nonws (fun c => c = ')') isDigitC _ hl3
  have hh5 := @pairSub_head_nonws (fun c => c = ')') (fun c => c = '(') _ hh4
  have hl5 := @pairSub_last_nonws (fun c => c = ')') (fun c => c = '(') _ hl4
  exact ⟨hh5, hl5⟩

theorem hasDWP_preprocessL (l : List Char) : hasDWP (preprocessL l) = false := by
  have h1 : hasDWP (pctSub (stripChars l)) = false :=
    hasDWP_pctSubF (le_refl (stripChars l).length)
  have h2 := @hasDWP_pairSub isDigitC isLowerAZ digit_nospace_nopct _ h1
  have h3 := @hasDWP_pairSub isDigitC (fun c => c = '(') digit_nospace_nopct _ h2
  have h4 := @hasDWP_pairSub (fun c => c = ')') isDigitC rparen_nospace_nopct _ h3
  have h5 := @hasDWP_pairSub (fun c => c = ')') (fun c => c = '(') rparen_nospace_nopct _ h4
  exact h5

theorem hasPairDL_preprocessL (l : List Char) :
    hasPair isDigitC isLowerAZ (preprocessL l) = false := by
  have h2 : hasPair isDigitC isLowerAZ
      (digitLowerSub (pctSub (stripChars l))) = false :=
    hasPair_pairSub_self (fun c => lower_not_digit) (by decide) (by decide) _
  have h3 := @hasPair_pairSub_other isDigitC (fun c => c = '(') isDigitC isLowerAZ
    (by decide) (by decide) _ h2
  have h4 := @hasPair_pairSub_other (fun c => c = ')') isDigitC isDigitC isLowerAZ
    (by decide) (by decide) _ h3
  have h5 := @hasPair_pairSub_other (fun c => c = ')') (fun c => c = '(') isDigitC isLowerAZ
    (by decide) (by decide) _ h4
  exact h5

theorem hasPairDP_preprocessL (l : List Char) :
    hasPair isDigitC (fun c => decide (c = '(')) (preprocessL l) = false := by
  have h3 : hasPair isDigitC (fun c => decide (c = '('))
      (digitParenSub (digitLowerSub (pctSub (stripChars l)))) = false :=
    hasPair_pairSub_self (fun c => lparen_not_digit c) (by decide) (by decide) _
  have h4 := @hasPair_pairSub_other (fun c => c = ')') isDigitC
    isDigitC (fun c => decide (c = '(')) (by decide) (by decide) _ h3
  have h5 := @hasPair_pairSub_other (fun c => c = ')') (fun c => c = '(')
    isDigitC (fun c => decide (c = '(')) (by decide) (by decide) _ h4
  exact h5

theorem hasPairPD_preprocessL (l : List Char) :
    hasPair (fun c => decide (c = ')')) isDigitC (preprocessL l) = false := by
  have h4 : hasPair (fun c => decide (c = ')')) isDigitC
      (parenDigitSub (digitParenSub (digitLowerSub (pctSub (stripChars l))))) = false :=
    hasPair_pairSub_self (fun c => digit_not_rparen c) (by decide) (by decide) _
  have h5 := @hasPair_pairSub_other (fun c => c = ')') (fun c => c = '(')
    (fun c => decide (c = ')')) isDigitC (by decide) (by decide) _ h4
  exact h5

theorem hasPairPP_preprocessL (l : List Char) :
    hasPair (fun c => decide (c = ')')) (fun c => decide (c = '('))
      (preprocessL l) = false :=
  hasPair_pairSub_self (fun c => lparen_not_rparen c) (by decide) (by decide) _

theorem preprocessL_idem (l : List Char) :
    preprocessL (preprocessL l) = preprocessL l := by
  have hstrip : stripChars (preprocessL l) = preprocessL l :=
    stripChars_id_of_noWsEdge (noWsEdge_preprocessL l)
  have hpct : pctSub (preprocessL l) = preprocessL l :=
    pctSubF_id_of_not_hasDWP (le_refl _) (hasDWP_preprocessL l)
  have hdl : digitLowerSub (preprocessL l) = preprocessL l :=
    pairSub_id _ (hasPairDL_preprocessL l)
  have hdp : digitParenSub (preprocessL l) = preprocessL l :=
    pairSub_id _ (hasPairDP_preprocessL l)
  have hpd : parenDigitSub (preprocessL l) = preprocessL l :=
    pairSub_id _ (hasPairPD_preprocessL l)
  have hpp : parenParenSub (preprocessL l) = preprocessL l :=
    pairSub_id _ (hasPairPP_preprocessL l)
  conv_lhs => rw [preprocessL, hstrip, hpct, hdl, hdp, hpd, hpp]

/-! ## Claim theorems -/

set_option maxRecDepth 100000

/-- Claim C8: `preprocess_expression` is idempotent — normalizing an
already-normalized expression a second time produces no further change. -/
theorem claim8_thm (s : String) :
    preprocess_expression (preprocess_expression s) = preprocess_expression s := by
  simp only [preprocess_expression]
  exact congrArg String.mk (preprocessL_idem s.data)

/-- Claim C9: `append_history` inserts the new entry at the head of the
user's list and truncates to at most `MAX_HISTORY` (100) entries, so
`load_history` returns the just-appended entry first (newest first) and a
list of length at most 100. -/
theorem claim9_thm (h : String → List CalculationEntry) (u : String)
    (e : CalculationEntry) :
    load_history (append_history h u e) u
        = e :: (load_history h u).take (MAX_HISTORY - 1) ∧
      (load_history (append_history h u e) u).head? = some e ∧
      (load_history (append_history h u e) u).length ≤ MAX_HISTORY := by
  have hload : load_history (append_history h u e) u
      = (e :: h u).take MAX_HISTORY := by
    simp [load_history, append_history]
  refine ⟨?_, ?_, ?_⟩
  · rw [hload]
    simp [MAX_HISTORY, load_history]
  · rw [hload]
    simp [MAX_HISTORY]
  · rw [hload]
    have := List.length_take MAX_HISTORY (e :: h u)
    omega

theorem safe_eval_eq {s : String} {e : PExpr} (hp : parseStage s = some e) :
    safe_eval s =
      (match evalE (evalFuel s) e with
        | .ok v => formatResult v
        | .error .zeroDiv => (none, some "Division by zero")
        | .error (.nameErr n) =>
          (none, some ("Unknown function or variable: " ++ pyNameErrorStr n))
        | .error (.typeErr m) => (none, some ("Error: " ++ m))
        | .error (.valueErr m) => (none, some ("Error: " ++ m))
        | .error (.unmodelled m) => (none, some ("Error: " ++ m))) := by
  unfold safe_eval
  rw [hp]

/-- Claim C4: whenever `safe_eval` returns a value, it reports no error,
and no returned float has an integral value (such values are converted to
`int` by the result formatting); concretely `sqrt(144)` evaluates to the
integer 12 and `sin(pi/2)` to the integer 1. -/
theorem claim4_thm :
    (∀ s v, (safe_eval s).1 = some v →
      (safe_eval s).2 = none ∧ ∀ q, v = PyVal.float q → q.den ≠ 1) ∧
    safe_eval "sqrt(144)" = (some (PyVal.int 12), none) ∧
    safe_eval "sin(pi/2)" = (some (PyVal.int 1), none) := by
  refine ⟨?_, by decide, by decide⟩
  intro s v h
  rcases hps : parseStage s with _ | e
  · unfold safe_eval at h ⊢
    rw [hps] at h
    simp at h
  · rw [safe_eval_eq hps] at h ⊢
    rcases hev : evalE (evalFuel s) e with err | val
    · rw [hev] at h
      cases err <;> exact Option.noConfusion h
    · rw [hev] at h
      have h2 : (formatResult val).1 = some v := h
      clear h
      rename' h2 => h
      show (formatResult val).2 = none ∧ ∀ q, v = PyVal.float q → q.den ≠ 1
      match val with
      | .int n =>
        simp only [formatResult, Option.some_inj] at h
        subst h
        simp [formatResult]
      | .float q0 =>
        by_cases hden : q0.den = 1
        · simp only [formatResult, if_pos hden, Option.some_inj] at h
          subst h
          simp [formatResult, if_pos hden]
        · simp only [formatResult, if_neg hden, Option.some_inj] at h
          subst h
          simp only [formatResult, if_neg hden]
          refine ⟨by trivial, ?_⟩
          intro q hq
          cases hq
          exact hden
      | .bool b =>
        simp only [formatResult, Option.some_inj] at h
        subst h
        simp [formatResult]
      | .extFloat s' =>
        simp only [formatResult, Option.some_inj] at h
        subst h
        simp [formatResult]
      | .pynone => simp [formatResult] at h
      | .fn s' => simp [formatResult] at h

/-- Claim C5: an evaluation that raises the division-by-zero condition
makes `safe_eval` return no value and the message "Division by zero";
concretely so for the input `1/0` (see the witness). -/
theorem claim5_thm (s : String) (e : PExpr) (hp : parseStage s = some e)
    (he : evalE (evalFuel s) e = .error .zeroDiv) :
    safe_eval s = (none, some "Division by zero") := by
  rw [safe_eval_eq hp, he]

theorem claim5_witness : safe_eval "1/0" = (none, some "Division by zero") :=
  claim5_thm "1/0" (.divE (.intL 1) (.intL 0)) (by rfl) (by rfl)

/-- Claim C6 (amended): when evaluation hits an identifier absent from the
namespace, the lookup falls through to the builtins mapping, which is
`None`, so Python raises `TypeError` and `safe_eval` returns no value and
the generic-handler message `Error: ` followed by
`'NoneType' object is not subscriptable`; the `except NameError` branch
producing `Unknown function or variable: ...` is never reached. -/
theorem claim6_thm (s : String) (e : PExpr)
    (hp : parseStage s = some e)
    (he : evalE (evalFuel s) e = .error (.typeErr pyNoneSubMsg)) :
    safe_eval s = (none, some ("Error: " ++ pyNoneSubMsg)) := by
  rw [safe_eval_eq hp, he]

theorem claim6_witness :
    safe_eval "foo(1)" = (none, some ("Error: " ++ pyNoneSubMsg)) :=
  claim6_thm "foo(1)" (.call (.name "foo") [.intL 1]) (by rfl) (by rfl)

/-- Claim C6, counterexample to the claim as stated: for the input
`foo(1)` — an unknown identifier — the returned message is the `TypeError`
text `Error: 'NoneType' object is not subscriptable`, which is not of the
form `Unknown function or variable: <anything>`. -/
theorem claim6_cex :
    safe_eval "foo(1)" = (none, some ("Error: " ++ pyNoneSubMsg)) ∧
    ∀ m : String,
      ("Error: " ++ pyNoneSubMsg) ≠ ("Unknown function or variable: " ++ m) := by
  refine ⟨by decide, ?_⟩
  intro m h
  have h2 : ("Error: " ++ pyNoneSubMsg).data.head?
      = ("Unknown function or variable: " ++ m).data.head? := by rw [h]
  have h3 : ("Error: " ++ pyNoneSubMsg).data.head? = some 'E' := rfl
  have h4 : ("Unknown function or variable: " ++ m).data.head? = some 'U' := rfl
  rw [h3, h4] at h2
  exact absurd h2 (by decide)

/-- Claim C10: a syntactically valid expression evaluating to a boolean is
returned by `safe_eval` as a successful result (Python's `bool` is a
subclass of `int`, so it passes the `isinstance` check), not as the
"Result is not a number" error; concretely `2>1` returns `True`. -/
theorem claim10_thm :
    (∀ s e b, parseStage s = some e → evalE (evalFuel s) e = .ok (.bool b) →
      safe_eval s = (some (PyVal.bool b), none)) ∧
    safe_eval "2>1" = (some (PyVal.bool true), none) := by
  refine ⟨?_, by decide⟩
  intro s e b hp he
  rw [safe_eval_eq hp, he]
  rfl

theorem claim10_witness : safe_eval "2>1" = (some (PyVal.bool true), none) :=
  claim10_thm.1 "2>1" (.gtE (.intL 2) (.intL 1)) true (by rfl) (by rfl)

theorem claim4_witness :
    (safe_eval "sqrt(144)").2 = none ∧
      ∀ q, PyVal.int 12 = PyVal.float q → q.den ≠ 1 :=
  claim4_thm.1 "sqrt(144)" (PyVal.int 12) (by decide)

/-- Claim C1, counterexample to the claim as stated: the identifier
`__builtins__` is outside the stated allowlist, yet it resolves (to
`None`, the value the source binds it to), so evaluating the expression
`__builtins__` reports "Result is not a number" instead of an
unknown-identifier error. -/
theorem claim1_cex :
    ("__builtins__" ∉ claimedAllowlist) ∧
      dictGet safeDict "__builtins__" = some PyVal.pynone ∧
      safe_eval "__builtins__" = (none, some "Result is not a number") :=
  ⟨by decide, by decide, by decide⟩

/-- Claim C1 (amended): an identifier is resolvable during evaluation iff
it belongs to the stated allowlist (the public math names plus `abs`,
`round`, `pow`, `min`, `max`) or is the extra key `__builtins__`, which
the namespace binds to `None`; evaluating any other identifier fails — 
with the `TypeError` from looking the name up in the `None` builtins
mapping, not with a `NameError`. -/
theorem claim1_thm :
    (∀ n : String, (∃ v, dictGet safeDict n = some v) ↔
      (n ∈ claimedAllowlist ∨ n = "__builtins__")) ∧
    (∀ (f : ℕ) (n : String), dictGet safeDict n = none →
      evalE (f + 1) (.name n) = .error (.typeErr pyNoneSubMsg)) := by
  constructor
  · intro n
    have hmem : (∀ x ∈ safeDict.map Prod.fst,
        x ∈ "__builtins__" :: claimedAllowlist) ∧
        (∀ x ∈ "__builtins__" :: claimedAllowlist,
          x ∈ safeDict.map Prod.fst) := by decide
    constructor
    · rintro ⟨v, hv⟩
      simp only [dictGet, Option.map_eq_some'] at hv
      obtain ⟨p, hp, -⟩ := hv
      have hpmem : p ∈ safeDict := List.mem_of_find?_eq_some hp
      have hpn : p.1 = n := by
        have := List.find?_some hp
        simpa using this
      have : n ∈ safeDict.map Prod.fst := by
        rw [← hpn]
        exact List.mem_map_of_mem Prod.fst hpmem
      have := hmem.1 n this
      simp only [List.mem_cons] at this
      tauto
    · intro hn
      have : n ∈ safeDict.map Prod.fst := by
        apply hmem.2
        simp only [List.mem_cons]
        tauto
      simp only [List.mem_map] at this
      obtain ⟨p, hp, hpn⟩ := this
      have : (safeDict.find? (fun q => q.1 = n)).isSome := by
        rw [List.find?_isSome]
        exact ⟨p, hp, by simp [hpn]⟩
      match hfind : safeDict.find? (fun q => q.1 = n) with
      | some q => exact ⟨q.2, by simp [dictGet, hfind]⟩
      | none => rw [hfind] at this; simp at this
  · intro f n h
    simp only [evalE, h]

theorem claim1_witness :
    (∃ v, dictGet safeDict "sin" = some v) ∧
      evalE 1 (.name "zzz") = .error (.typeErr pyNoneSubMsg) :=
  ⟨(claim1_thm.1 "sin").mpr (Or.inl (by decide)), claim1_thm.2 0 "zzz" (by decide)⟩

theorem pctSub_match {l lit rest' : List Char}
    (hm : matchPct l = some (lit, rest')) :
    pctSub l = '(' :: (lit ++ '/' :: '1' :: '0' :: '0' :: ')' :: pctSub rest') := by
  match l with
  | [] => simp [matchPct] at hm
  | c :: rest => rw [pctSub_cons, hm]

theorem hasDWP_elim {l : List Char} (h : hasDWP l = true) :
    ∃ u d w v, l = u ++ d :: (w ++ '%' :: v) ∧ isDigitC d = true ∧
      w.all isSpaceC = true := by
  induction l with
  | nil => simp [hasDWP] at h
  | cons c t ih =>
    simp only [hasDWP, Bool.or_eq_true, Bool.and_eq_true] at h
    rcases h with ⟨hc, ht⟩ | h
    · obtain ⟨ws, v, hsplit, hall⟩ := wsThenPct_elim ht
      exact ⟨[], c, ws, v, by simp [hsplit], hc, hall⟩
    · obtain ⟨u, d, w, v, hsplit, hd, hw⟩ := ih h
      exact ⟨c :: u, d, w, v, by simp [hsplit], hd, hw⟩

/-- Claim C7, counterexample to the claim as stated: in `5 %` the `%` is
immediately preceded by a space, not by a numeric literal, yet the rule
rewrites it (the regex allows `\s*` between the literal and `%`).
The classes are moreover Unicode classes: a no-break space (`\xa0`)
between the literal and `%` is also consumed, and an Arabic-Indic digit
(`٥`, U+0665) also matches `\d` and is rewritten. -/
theorem claim7_cex :
    preprocess_expression "5 %" = "(5/100)" ∧
      "5 %".data.get? 1 = some ' ' ∧
      preprocess_expression "5 %" ≠ "5 %" ∧
      preprocess_expression ⟨['5', '\xa0', '%']⟩ = "(5/100)" ∧
      preprocess_expression ⟨['٥', '%']⟩ = ⟨'(' :: '٥' :: "/100)".data⟩ :=
  ⟨by decide, by decide, by decide, by decide, by decide⟩

/-- Claim C7 (amended): the percent rule rewrites exactly the occurrences
of a digit sequence (optionally with one decimal point) separated from the
`%` by optional whitespace, where digits and whitespace are Python's
Unicode classes `\d` and `\s`: such a literal becomes `(n/100)` (dropping
the whitespace), and a string containing no digit followed by
whitespace-then-`%` is left entirely unrewritten. -/
theorem claim7_thm :
    (∀ ds fso ws v, LitOK ds fso → ws.all isSpaceC = true →
      pctSub (litChars ds fso ++ ws ++ '%' :: v)
        = '(' :: (litChars ds fso ++ '/' :: '1' :: '0' :: '0' :: ')' :: pctSub v)) ∧
    (∀ l, (¬∃ u d w v, l = u ++ d :: (w ++ '%' :: v) ∧ isDigitC d = true ∧
        w.all isSpaceC = true) → pctSub l = l) := by
  constructor
  · intro ds fso ws v hok hws
    exact pctSub_match (matchPct_complete hok hws)
  · intro l hno
    apply pctSubF_id_of_not_hasDWP (le_refl _)
    cases hdwp : hasDWP l
    · rfl
    · exact absurd (hasDWP_elim hdwp) hno

theorem claim7_witness :
    pctSub (litChars ['5', '0'] none ++ [] ++ '%' :: ['*', '2'])
        = '(' :: (litChars ['5', '0'] none ++ '/' :: '1' :: '0' :: '0' :: ')' ::
            pctSub ['*', '2']) ∧
      pctSub ['a', '+', 'b'] = ['a', '+', 'b'] :=
  ⟨claim7_thm.1 ['5', '0'] none [] ['*', '2']
      ⟨by decide, by decide, fun fs hfs => by simp at hfs⟩ (by decide),
    claim7_thm.2 ['a', '+', 'b'] (by
      rintro ⟨u, d, w, v, hsplit, hd, hw⟩
      have : hasDWP ['a', '+', 'b'] = true := by
        rw [hsplit]
        exact hasDWP_append_redex u v hd hw
      exact absurd this (by decide))⟩

/-! ## The executable rational operations agree with the field operations -/

theorem qMul_eq (a b : ℚ) : qMul a b = a * b := by
  rw [qMul, Rat.mkRat_eq_div]
  push_cast
  rw [← div_mul_div_comm, Rat.num_div_den, Rat.num_div_den]

theorem qAdd_eq (a b : ℚ) : qAdd a b = a + b := by
  have ha : ((a.den : ℚ)) ≠ 0 := by
    exact_mod_cast a.den_nz
  have hb : ((b.den : ℚ)) ≠ 0 := by
    exact_mod_cast b.den_nz
  rw [qAdd, Rat.mkRat_eq_div]
  push_cast
  rw [show (a.num : ℚ) * (b.den : ℚ) + (b.num : ℚ) * (a.den : ℚ)
      = (a.num : ℚ) * (b.den : ℚ) + (a.den : ℚ) * (b.num : ℚ) by ring]
  rw [(div_add_div _ _ ha hb).symm, Rat.num_div_den, Rat.num_div_den]

theorem qSub_eq (a b : ℚ) : qSub a b = a - b := by
  rw [qSub, qAdd_eq, ← sub_eq_add_neg]

theorem rat_div_eq (x y : ℚ) :
    x / y = ((x.num : ℚ) * (y.den : ℚ)) / ((x.den : ℚ) * (y.num : ℚ)) := by
  have hinv : y⁻¹ = ((y.den : ℚ)) / ((y.num : ℚ)) := by
    rw [show (y⁻¹ : ℚ) = y.inv from rfl, Rat.inv_def, Rat.divInt_eq_div]
    push_cast
    rfl
  rw [div_eq_mul_inv, hinv, ← Rat.num_div_den x, div_mul_div_comm,
    Rat.num_div_den x]

theorem qDiv_eq (a b : ℚ) : qDiv a b = a / b := by
  by_cases hbn : 0 ≤ b.num
  · have hcast : ((b.num.toNat : ℕ) : ℚ) = (b.num : ℚ) := by
      exact_mod_cast congrArg (Int.cast : ℤ → ℚ) (Int.toNat_of_nonneg hbn)
    rw [qDiv, if_pos hbn, Rat.mkRat_eq_div, rat_div_eq a b]
    push_cast
    rw [hcast]
  · have hcast : (((-b.num).toNat : ℕ) : ℚ) = -(b.num : ℚ) := by
      exact_mod_cast congrArg (Int.cast : ℤ → ℚ)
        (Int.toNat_of_nonneg (by omega : (0:ℤ) ≤ -b.num))
    rw [qDiv, if_neg hbn, Rat.mkRat_eq_div, rat_div_eq a b]
    push_cast
    rw [hcast, mul_neg, div_neg, neg_div, neg_neg]

/-- Claim C3: the preprocessing inserts `*` between a digit and an
immediately following lowercase letter and between a digit and an
immediately following `(`; `2pi` normalizes to `2*pi` (whose value
`2 * math.pi` is approximately 6.283185307) and `3(4)` normalizes to
`3*(4)` and evaluates to 12. -/
theorem claim3_thm :
    (∀ a b rest, isDigitC a = true → isLowerAZ b = true →
      digitLowerSub (a :: b :: rest) = a :: '*' :: b :: digitLowerSub rest) ∧
    (∀ a rest, isDigitC a = true →
      digitParenSub (a :: '(' :: rest) = a :: '*' :: '(' :: digitParenSub rest) ∧
    preprocess_expression "2pi" = "2*pi" ∧
    safe_eval "2pi" = (some (PyVal.float (qMul 2 piQ)), none) ∧
    |qMul 2 piQ - 6283185307 / 1000000000| < 1 / 100000000 ∧
    preprocess_expression "3(4)" = "3*(4)" ∧
    safe_eval "3(4)" = (some (PyVal.int 12), none) := by
  refine ⟨?_, ?_, by decide, by decide, ?_, by decide, by decide⟩
  · intro a b rest ha hb
    simp [digitLowerSub, pairSub, ha, hb]
  · intro a rest ha
    simp [digitParenSub, pairSub, ha]
  · have hval : qMul 2 piQ = mkRat 884279719003555 140737488355328 := by decide
    have hpi : (mkRat 884279719003555 140737488355328 : ℚ)
        = (884279719003555 : ℚ) / (140737488355328 : ℚ) := by
      rw [Rat.mkRat_eq_div]
      push_cast
      rfl
    rw [hval, hpi]
    rw [abs_sub_lt_iff]
    constructor <;> norm_num

theorem claim3_witness :
    digitLowerSub ['2', 'p', 'i'] = ['2', '*', 'p', 'i'] ∧
      digitParenSub ['3', '(', '4', ')'] = ['3', '*', '(', '4', ')'] := by
  constructor
  · have h := claim3_thm.1 '2' 'p' ['i'] (by decide) (by decide)
    rw [h]
    rfl
  · have h := claim3_thm.2.1 '3' ['4', ')'] (by decide)
    rw [h]
    rfl

/-! ## Tokenizer lemmas -/


/-! ## Tokenizer lemmas -/

theorem tok_suffix1 (m : ℕ) :
    tokenizeF (m + 4) ['/', '1', '0', '0'] = some [Tok.tSlash, Tok.tInt 100] := by
  have e1 : tokenizeF (m + 4) ['/', '1', '0', '0']
      = (tokenizeF (m + 3) ['1', '0', '0']).map (fun ts => Tok.tSlash :: ts) := by
    have e := tokenizeF.eq_3 (m + 3) '/' ['1', '0', '0']
    rw [if_neg (by decide), if_neg (by decide), if_neg (by decide), if_neg (by decide),
      if_neg (by decide), if_neg (by decide), if_neg (by decide), if_pos (by decide)] at e
    exact e
  have e2 : tokenizeF (m + 3) ['1', '0', '0']
      = (tokenizeF (m + 2) []).map (fun ts => Tok.tInt 100 :: ts) := by
    have e := tokenizeF.eq_3 (m + 2) '1' ['0', '0']
    rw [if_neg (by decide), if_pos (by decide), if_neg (by decide)] at e
    rw [show List.dropWhile isDigitA ['1', '0', '0'] = [] from by decide] at e
    rw [show ((digitsVal (List.takeWhile isDigitA ['1', '0', '0'])) : ℤ) = (100 : ℤ)
      from by decide] at e
    exact e
  have e3 : tokenizeF (m + 2) ([] : List Char) = some [] := tokenizeF.eq_2 (m + 1)
  rw [e1, e2, e3]
  rfl

theorem tok_suffix2 (m : ℕ) :
    tokenizeF (m + 5) ['/', '1', '0', '0', ')']
      = some [Tok.tSlash, Tok.tInt 100, Tok.tRParen] := by
  have e1 : tokenizeF (m + 5) ['/', '1', '0', '0', ')']
      = (tokenizeF (m + 4) ['1', '0', '0', ')']).map (fun ts => Tok.tSlash :: ts) := by
    have e := tokenizeF.eq_3 (m + 4) '/' ['1', '0', '0', ')']
    rw [if_neg (by decide), if_neg (by decide), if_neg (by decide), if_neg (by decide),
      if_neg (by decide), if_neg (by decide), if_neg (by decide), if_pos (by decide)] at e
    exact e
  have e2 : tokenizeF (m + 4) ['1', '0', '0', ')']
      = (tokenizeF (m + 3) [')']).map (fun ts => Tok.tInt 100 :: ts) := by
    have e := tokenizeF.eq_3 (m + 3) '1' ['0', '0', ')']
    rw [if_neg (by decide), if_pos (by decide), if_neg (by decide)] at e
    rw [show List.dropWhile isDigitA ['1', '0', '0', ')'] = [')'] from by decide] at e
    rw [show ((digitsVal (List.takeWhile isDigitA ['1', '0', '0', ')'])) : ℤ) = (100 : ℤ)
      from by decide] at e
    exact e
  have e3 : tokenizeF (m + 3) [')']
      = (tokenizeF (m + 2) []).map (fun ts => Tok.tRParen :: ts) := by
    have e := tokenizeF.eq_3 (m + 2) ')' []
    rw [if_neg (by decide), if_neg (by decide), if_neg (by decide), if_neg (by decide),
      if_neg (by decide), if_neg (by decide), if_neg (by decide), if_neg (by decide),
      if_neg (by decide), if_neg (by decide), if_neg (by decide), if_neg (by decide),
      if_pos (by decide)] at e
    exact e
  have e4 : tokenizeF (m + 2) ([] : List Char) = some [] := tokenizeF.eq_2 (m + 1)
  rw [e1, e2, e3, e4]
  rfl

theorem tokenize_step_digit {d : Char} {rest : List Char} (hd : isDigitA d = true) :
    tokenize (d :: rest) =
      if ((d :: rest).dropWhile isDigitA).head? = some '.' then
        (tokenizeF ((d :: rest).length)
            (((d :: rest).dropWhile isDigitA).tail.dropWhile isDigitA)).map
          (fun ts => Tok.tFloat (qAdd (digitsVal ((d :: rest).takeWhile isDigitA) : ℚ)
            (fracVal (((d :: rest).dropWhile isDigitA).tail.takeWhile isDigitA))) :: ts)
      else
        (tokenizeF ((d :: rest).length) ((d :: rest).dropWhile isDigitA)).map
          (fun ts => Tok.tInt (digitsVal ((d :: rest).takeWhile isDigitA)) :: ts) := by
  have e := tokenizeF.eq_3 ((d :: rest).length) d rest
  rw [if_neg (by simp [digitA_not_spaceA hd]), if_pos hd] at e
  exact e

theorem tokenize_step_lparen (rest : List Char) :
    tokenize ('(' :: rest) = (tokenize rest).map (fun ts => Tok.tLParen :: ts) := by
  have e := tokenizeF.eq_3 (rest.length + 1) '(' rest
  rw [if_neg (by decide), if_neg (by decide), if_neg (by decide), if_neg (by decide),
    if_neg (by decide), if_neg (by decide), if_neg (by decide), if_neg (by decide),
    if_neg (by decide), if_neg (by decide), if_neg (by decide), if_pos (by decide)] at e
  exact e

theorem tokenize_lit_suffix {ds : List Char} {fso : Option (List Char)}
    (h : LitOK ds fso) {S : List Char} {TS : List Tok}
    (hShead : ∀ c, S.head? = some c → isDigitA c = false ∧ c ≠ '.')
    (hS : ∀ m, tokenizeF (m + S.length) S = some TS) :
    tokenize (litChars ds fso ++ S) = some (numTok ds fso :: TS) := by
  obtain ⟨hne, hall, hfs⟩ := h
  obtain ⟨d, ds', rfl⟩ : ∃ d ds', ds = d :: ds' := by
    match ds, hne with
    | d :: ds', _ => exact ⟨d, ds', rfl⟩
  have hd : isDigitA d = true := by
    simp only [List.all_cons, Bool.and_eq_true] at hall
    exact hall.1
  have hShead' : ∀ c, S.head? = some c → isDigitA c = false :=
    fun c hc => (hShead c hc).1
  have hnodot : ¬ (S.head? = some '.') := by
    intro heq
    exact (hShead '.' heq).2 rfl
  cases fso with
  | none =>
    have hshape : litChars (d :: ds') none ++ S = d :: (ds' ++ S) := by
      simp [litChars]
    rw [hshape, tokenize_step_digit hd]
    have hmerge : d :: (ds' ++ S) = (d :: ds') ++ S := by simp
    have hdw : (d :: (ds' ++ S)).dropWhile isDigitA = S := by
      rw [hmerge]
      exact dropWhile_all_head hall hShead'
    have htw : (d :: (ds' ++ S)).takeWhile isDigitA = d :: ds' := by
      rw [hmerge]
      exact takeWhile_all_head hall hShead'
    rw [hdw, htw, if_neg hnodot]
    have hlen : (d :: (ds' ++ S)).length = (ds'.length + 1) + S.length := by
      simp only [List.length_cons, List.length_append]
      omega
    rw [hlen, hS (ds'.length + 1)]
    rfl
  | some fs =>
    obtain ⟨hfne, hfall⟩ := hfs fs rfl
    have hshape : litChars (d :: ds') (some fs) ++ S
        = d :: (ds' ++ ('.' :: (fs ++ S))) := by
      simp [litChars]
    rw [hshape, tokenize_step_digit hd]
    have hmerge : d :: (ds' ++ ('.' :: (fs ++ S))) = (d :: ds') ++ ('.' :: (fs ++ S)) := by
      simp
    have hdots : ∀ c : Char, ('.' :: (fs ++ S)).head? = some c → isDigitA c = false := by
      intro c hc
      simp only [List.head?_cons, Option.some_inj] at hc
      subst hc
      decide
    have hdw : (d :: (ds' ++ ('.' :: (fs ++ S)))).dropWhile isDigitA
        = '.' :: (fs ++ S) := by
      rw [hmerge]
      exact dropWhile_all_head hall hdots
    have htw : (d :: (ds' ++ ('.' :: (fs ++ S)))).takeWhile isDigitA = d :: ds' := by
      rw [hmerge]
      exact takeWhile_all_head hall hdots
    have hcond : ('.' :: (fs ++ S)).head? = some ('.' : Char) := rfl
    rw [hdw, htw, if_pos hcond]
    simp only [List.tail_cons]
    have hdw2 : (fs ++ S).dropWhile isDigitA = S := dropWhile_all_head hfall hShead'
    have htw2 : (fs ++ S).takeWhile isDigitA = fs := takeWhile_all_head hfall hShead'
    rw [hdw2, htw2]
    have hlen : (d :: (ds' ++ ('.' :: (fs ++ S)))).length
        = (ds'.length + fs.length + 2) + S.length := by
      simp only [List.length_cons, List.length_append]
      omega
    rw [hlen, hS (ds'.length + fs.length + 2)]
    rfl

theorem tokenize_lit_div100 {ds : List Char} {fso : Option (List Char)}
    (h : LitOK ds fso) :
    tokenize (litChars ds fso ++ ['/', '1', '0', '0'])
      = some [numTok ds fso, Tok.tSlash, Tok.tInt 100] := by
  apply tokenize_lit_suffix h
  · intro c hc
    simp only [List.head?_cons, Option.some_inj] at hc
    subst hc
    exact ⟨by decide, by decide⟩
  · intro m
    exact tok_suffix1 m

theorem tokenize_paren_lit_div100 {ds : List Char} {fso : Option (List Char)}
    (h : LitOK ds fso) :
    tokenize ('(' :: (litChars ds fso ++ ['/', '1', '0', '0', ')']))
      = some [Tok.tLParen, numTok ds fso, Tok.tSlash, Tok.tInt 100, Tok.tRParen] := by
  rw [tokenize_step_lparen]
  have hinner : tokenize (litChars ds fso ++ ['/', '1', '0', '0', ')'])
      = some [numTok ds fso, Tok.tSlash, Tok.tInt 100, Tok.tRParen] := by
    apply tokenize_lit_suffix h
    · intro c hc
      simp only [List.head?_cons, Option.some_inj] at hc
      subst hc
      exact ⟨by decide, by decide⟩
    · intro m
      exact tok_suffix2 m
  rw [hinner]
  rfl

theorem litChars_all {ds : List Char} {fso : Option (List Char)} (h : LitOK ds fso) :
    (litChars ds fso).all (fun c => isDigitC c || c = '.') = true := by
  obtain ⟨hne, hall, hfs⟩ := h
  have hds : ds.all (fun c => isDigitC c || c = '.') = true :=
    all_mono (fun c hc => by simp [digitA_digit hc]) hall
  cases fso with
  | none => simpa [litChars] using hds
  | some fs =>
    obtain ⟨hfne, hfall⟩ := hfs fs rfl
    have hfs' : fs.all (fun c => isDigitC c || c = '.') = true :=
      all_mono (fun c hc => by simp [digitA_digit hc]) hfall
    simp only [litChars, List.all_append, List.all_cons, Bool.and_eq_true]
    exact ⟨hds, by decide, hfs'⟩

theorem litchar_facts {c : Char} (h : (isDigitC c || c = '.') = true) :
    isLowerAZ c = false ∧ (decide (c = '(')) = false ∧ (decide (c = ')')) = false := by
  rcases Bool.or_eq_true _ _ |>.mp h with hd | hdot
  · refine ⟨digit_not_lower hd, ?_, digit_not_rparen c hd⟩
    cases hb : decide (c = '(')
    · rfl
    · rw [lparen_not_digit c hb] at hd
      exact absurd hd (by simp)
  · simp only [decide_eq_true_eq] at hdot
    subst hdot
    exact ⟨by decide, by decide, by decide⟩

theorem litChars_head {d : Char} {ds' : List Char} (fso : Option (List Char))
    (S : List Char) : (litChars (d :: ds') fso ++ S).head? = some d := by
  cases fso <;> simp [litChars]

theorem hasPair_false_of_all {p1 p2 : Char → Bool} :
    ∀ {l : List Char}, l.all (fun c => !p2 c) = true → hasPair p1 p2 l = false := by
  intro l
  induction l with
  | nil => intro _; rfl
  | cons a r ih =>
    intro h
    simp only [List.all_cons, Bool.and_eq_true] at h
    have hr := ih h.2
    cases r with
    | nil => rfl
    | cons b r' =>
      have hb : p2 b = false := by
        have := h.2
        simp only [List.all_cons, Bool.and_eq_true, Bool.not_eq_true'] at this
        exact this.1
      simp only [hasPair, List.head?_cons, hb, Bool.and_false, Bool.false_or]
      simpa [hasPair] using hr

theorem hasPair_false_of_tail {p1 p2 : Char → Bool} {a : Char} {r : List Char}
    (h : r.all (fun c => !p2 c) = true) : hasPair p1 p2 (a :: r) = false := by
  have hr : hasPair p1 p2 r = false := hasPair_false_of_all h
  cases r with
  | nil => rfl
  | cons b r' =>
    have hb : p2 b = false := by
      simp only [List.all_cons, Bool.and_eq_true, Bool.not_eq_true'] at h
      exact h.1
    simp only [hasPair, List.head?_cons, hb, Bool.and_false, Bool.false_or]
    simpa [hasPair] using hr

theorem hasPair_false_of_front {p1 p2 : Char → Bool} :
    ∀ (l : List Char) (z : Char), l.all (fun c => !p1 c) = true →
      hasPair p1 p2 (l ++ [z]) = false := by
  intro l
  induction l with
  | nil => intro z _; rfl
  | cons a r ih =>
    intro z h
    simp only [List.all_cons, Bool.and_eq_true, Bool.not_eq_true'] at h
    have ha : p1 a = false := h.1
    have hr := ih z (by simp only [List.all_eq_true, Bool.not_eq_true'] at h ⊢; exact h.2)
    simp only [List.cons_append, hasPair, ha, Bool.false_and]
    cases (r ++ [z]).head? <;> exact hr

theorem hasPair_false_of_all_p1 {p1 p2 : Char → Bool} :
    ∀ {l : List Char}, l.all (fun c => !p1 c) = true → hasPair p1 p2 l = false := by
  intro l
  induction l with
  | nil => intro _; rfl
  | cons a r ih =>
    intro h
    simp only [List.all_cons, Bool.and_eq_true] at h
    have ha : p1 a = false := by
      have := h.1
      simp only [Bool.not_eq_true'] at this
      exact this
    have hr := ih h.2
    simp only [hasPair, ha, Bool.false_and]
    cases r.head? <;> exact hr

theorem hasDWP_div100 {lit : List Char}
    (hlit : lit.all (fun c => isDigitC c || c = '.') = true) :
    hasDWP (lit ++ ['/', '1', '0', '0']) = false := by
  induction lit with
  | nil =>
    simp only [List.nil_append]
    decide
  | cons c t ih =>
    simp only [List.all_cons, Bool.and_eq_true] at hlit
    have hih := ih hlit.2
    simp only [List.cons_append, hasDWP, Bool.or_eq_false_iff, Bool.and_eq_false_iff]
    refine ⟨?_, hih⟩
    match t with
    | [] => exact Or.inr (by decide)
    | x :: t' =>
      have hx : (isDigitC x || x = '.') = true := by
        simp only [List.all_cons, Bool.and_eq_true] at hlit
        exact hlit.2.1
      exact Or.inr (wsThenPct_litchar_head _ hx)

theorem preprocessL_pct {ds : List Char} {fso : Option (List Char)} (h : LitOK ds fso) :
    preprocessL (litChars ds fso ++ ['%'])
      = '(' :: (litChars ds fso ++ ['/', '1', '0', '0', ')']) := by
  obtain ⟨d, ds', hds⟩ : ∃ d ds', ds = d :: ds' := by
    match ds, h.1 with
    | d :: ds', _ => exact ⟨d, ds', rfl⟩
  have hd : isDigitC d = true := by
    have := h.2.1
    rw [hds] at this
    simp only [List.all_cons, Bool.and_eq_true] at this
    exact digitA_digit this.1
  have hstrip : stripChars (litChars ds fso ++ ['%']) = litChars ds fso ++ ['%'] := by
    apply stripChars_id_of_noWsEdge
    constructor
    · intro c hc
      rw [hds, litChars_head fso ['%']] at hc
      simp only [Option.some_inj] at hc
      rw [← hc]
      exact digit_not_space hd
    · intro c hc
      rw [getLast?_append_right (by simp)] at hc
      simp only [List.getLast?_singleton, Option.some_inj] at hc
      rw [← hc]
      decide
  have hm : matchPct (litChars ds fso ++ ['%']) = some (litChars ds fso, []) := by
    have := @matchPct_complete ds fso [] [] h (by decide)
    simpa using this
  have hpct : pctSub (litChars ds fso ++ ['%'])
      = '(' :: (litChars ds fso ++ ['/', '1', '0', '0', ')']) := by
    rw [pctSub_match hm]
    rfl
  have hlitall := litChars_all h
  have hrest : (litChars ds fso ++ ['/', '1', '0', '0', ')']).all
      (fun c => (isDigitC c || c = '.') || (c = '/' || c = '1' || c = '0' || c = ')')) = true := by
    simp only [List.all_append, Bool.and_eq_true]
    refine ⟨all_mono (fun c hc => by simp [hc]) hlitall, by decide⟩
  have hfrontall : ('(' :: (litChars ds fso ++ ['/', '1', '0', '0'])).all
      (fun c => !(decide (c = ')'))) = true := by
    simp only [List.all_cons, List.all_append, Bool.and_eq_true]
    refine ⟨by decide, all_mono (fun c hc => by simp [(litchar_facts hc).2.2]) hlitall,
      by decide⟩
  have hp1 : hasPair isDigitC isLowerAZ
      ('(' :: (litChars ds fso ++ ['/', '1', '0', '0', ')'])) = false := by
    apply hasPair_false_of_all
    simp only [List.all_cons, List.all_append, Bool.and_eq_true]
    exact ⟨by decide, all_mono (fun c hc => by simp [(litchar_facts hc).1]) hlitall,
      by decide⟩
  have hp2 : hasPair isDigitC (fun c => c = '(')
      ('(' :: (litChars ds fso ++ ['/', '1', '0', '0', ')'])) = false := by
    apply hasPair_false_of_tail
    simp only [List.all_append, Bool.and_eq_true]
    exact ⟨all_mono (fun c hc => by simp [(litchar_facts hc).2.1]) hlitall, by decide⟩
  have hshift : '(' :: (litChars ds fso ++ ['/', '1', '0', '0', ')'])
      = ('(' :: (litChars ds fso ++ ['/', '1', '0', '0'])) ++ [')'] := by
    simp
  have hp3 : hasPair (fun c => c = ')') isDigitC
      ('(' :: (litChars ds fso ++ ['/', '1', '0', '0', ')'])) = false := by
    rw [hshift]
    exact hasPair_false_of_front _ _ hfrontall
  have hp4 : hasPair (fun c => c = ')') (fun c => c = '(')
      ('(' :: (litChars ds fso ++ ['/', '1', '0', '0', ')'])) = false := by
    rw [hshift]
    exact hasPair_false_of_front _ _ hfrontall
  simp only [preprocessL, digitLowerSub, digitParenSub, parenDigitSub, parenParenSub]
  rw [hstrip, hpct, pairSub_id _ hp1, pairSub_id _ hp2, pairSub_id _ hp3,
    pairSub_id _ hp4]

theorem preprocessL_div100_id {ds : List Char} {fso : Option (List Char)}
    (h : LitOK ds fso) :
    preprocessL (litChars ds fso ++ ['/', '1', '0', '0'])
      = litChars ds fso ++ ['/', '1', '0', '0'] := by
  obtain ⟨d, ds', hds⟩ : ∃ d ds', ds = d :: ds' := by
    match ds, h.1 with
    | d :: ds', _ => exact ⟨d, ds', rfl⟩
  have hd : isDigitC d = true := by
    have := h.2.1
    rw [hds] at this
    simp only [List.all_cons, Bool.and_eq_true] at this
    exact digitA_digit this.1
  have hlitall := litChars_all h
  have hstrip : stripChars (litChars ds fso ++ ['/', '1', '0', '0'])
      = litChars ds fso ++ ['/', '1', '0', '0'] := by
    apply stripChars_id_of_noWsEdge
    constructor
    · intro c hc
      rw [hds, litChars_head fso ['/', '1', '0', '0']] at hc
      simp only [Option.some_inj] at hc
      rw [← hc]
      exact digit_not_space hd
    · intro c hc
      rw [getLast?_append_right (by simp),
        (by decide : (['/', '1', '0', '0'] : List Char).getLast? = some '0')] at hc
      simp only [Option.some_inj] at hc
      rw [← hc]
      decide
  have hpct : pctSub (litChars ds fso ++ ['/', '1', '0', '0'])
      = litChars ds fso ++ ['/', '1', '0', '0'] :=
    pctSubF_id_of_not_hasDWP (le_refl _) (hasDWP_div100 hlitall)
  have hp1 : hasPair isDigitC isLowerAZ
      (litChars ds fso ++ ['/', '1', '0', '0']) = false := by
    apply hasPair_false_of_all
    simp only [List.all_append, Bool.and_eq_true]
    exact ⟨all_mono (fun c hc => by simp [(litchar_facts hc).1]) hlitall, by decide⟩
  have hp2 : hasPair isDigitC (fun c => c = '(')
      (litChars ds fso ++ ['/', '1', '0', '0']) = false := by
    apply hasPair_false_of_all
    simp only [List.all_append, Bool.and_eq_true]
    exact ⟨all_mono (fun c hc => by simp [(litchar_facts hc).2.1]) hlitall, by decide⟩
  have hp3 : hasPair (fun c => c = ')') isDigitC
      (litChars ds fso ++ ['/', '1', '0', '0']) = false := by
    apply hasPair_false_of_all_p1
    simp only [List.all_append, Bool.and_eq_true]
    exact ⟨all_mono (fun c hc => by simp [(litchar_facts hc).2.2]) hlitall, by decide⟩
  have hp4 : hasPair (fun c => c = ')') (fun c => c = '(')
      (litChars ds fso ++ ['/', '1', '0', '0']) = false := by
    apply hasPair_false_of_all_p1
    simp only [List.all_append, Bool.and_eq_true]
    exact ⟨all_mono (fun c hc => by simp [(litchar_facts hc).2.2]) hlitall, by decide⟩
  simp only [preprocessL, digitLowerSub, digitParenSub, parenDigitSub, parenParenSub]
  rw [hstrip, hpct, pairSub_id _ hp1, pairSub_id _ hp2, pairSub_id _ hp3,
    pairSub_id _ hp4]

theorem evalE_div_int_stable (f : ℕ) (n : ℤ) :
    evalE (f + 2) (.divE (.intL n) (.intL 100))
      = evalE 2 (.divE (.intL n) (.intL 100)) := rfl

theorem evalE_div_float_stable (f : ℕ) (q : ℚ) :
    evalE (f + 2) (.divE (.floatL q) (.intL 100))
      = evalE 2 (.divE (.floatL q) (.intL 100)) := rfl

theorem parse_T1_int (n : ℤ) :
    parseToks [Tok.tInt n, Tok.tSlash, Tok.tInt 100]
      = some (.divE (.intL n) (.intL 100)) := rfl

theorem parse_T1_float (q : ℚ) :
    parseToks [Tok.tFloat q, Tok.tSlash, Tok.tInt 100]
      = some (.divE (.floatL q) (.intL 100)) := rfl

theorem parse_T2_int (n : ℤ) :
    parseToks [Tok.tLParen, Tok.tInt n, Tok.tSlash, Tok.tInt 100, Tok.tRParen]
      = some (.divE (.intL n) (.intL 100)) := rfl

theorem parse_T2_float (q : ℚ) :
    parseToks [Tok.tLParen, Tok.tFloat q, Tok.tSlash, Tok.tInt 100, Tok.tRParen]
      = some (.divE (.floatL q) (.intL 100)) := rfl

/-- Claim C2: for every decimal literal (a nonempty digit sequence with an
optional nonempty fractional part), evaluating the literal followed by `%`
gives exactly the same outcome as evaluating the literal followed by
`/100`; in particular `50%` evaluates to 0.5 and `50% * 200` to 100. -/
theorem claim2_thm :
    (∀ ds fso, LitOK ds fso →
      safe_eval ⟨litChars ds fso ++ ['%']⟩
        = safe_eval ⟨litChars ds fso ++ ['/', '1', '0', '0']⟩) ∧
    safe_eval "50%" = (some (PyVal.float (mkRat 1 2)), none) ∧
    safe_eval "50% * 200" = (some (PyVal.int 100), none) := by
  refine ⟨?_, by decide, by decide⟩
  intro ds fso h
  have hX : (preprocess_expression ⟨litChars ds fso ++ ['%']⟩).data
      = '(' :: (litChars ds fso ++ ['/', '1', '0', '0', ')']) := preprocessL_pct h
  have hY : (preprocess_expression ⟨litChars ds fso ++ ['/', '1', '0', '0']⟩).data
      = litChars ds fso ++ ['/', '1', '0', '0'] := preprocessL_div100_id h
  cases fso with
  | none =>
    have hpL : parseStage ⟨litChars ds none ++ ['%']⟩
        = some (.divE (.intL (digitsVal ds)) (.intL 100)) := by
      unfold parseStage
      rw [hX, tokenize_paren_lit_div100 h]
      exact parse_T2_int (digitsVal ds)
    have hpR : parseStage ⟨litChars ds none ++ ['/', '1', '0', '0']⟩
        = some (.divE (.intL (digitsVal ds)) (.intL 100)) := by
      unfold parseStage
      rw [hY, tokenize_lit_div100 h]
      exact parse_T1_int (digitsVal ds)
    rw [safe_eval_eq hpL, safe_eval_eq hpR]
    have hfuel : evalE (evalFuel ⟨litChars ds none ++ ['%']⟩)
        (.divE (.intL (digitsVal ds)) (.intL 100))
        = evalE (evalFuel ⟨litChars ds none ++ ['/', '1', '0', '0']⟩)
          (.divE (.intL (digitsVal ds)) (.intL 100)) := by
      simp only [evalFuel]
      conv_lhs => rw [evalE_div_int_stable]
      conv_rhs => rw [evalE_div_int_stable]
    rw [hfuel]
  | some fs =>
    have hpL : parseStage ⟨litChars ds (some fs) ++ ['%']⟩
        = some (.divE (.floatL (qAdd (digitsVal ds : ℚ) (fracVal fs))) (.intL 100)) := by
      unfold parseStage
      rw [hX, tokenize_paren_lit_div100 h]
      exact parse_T2_float (qAdd (digitsVal ds : ℚ) (fracVal fs))
    have hpR : parseStage ⟨litChars ds (some fs) ++ ['/', '1', '0', '0']⟩
        = some (.divE (.floatL (qAdd (digitsVal ds : ℚ) (fracVal fs))) (.intL 100)) := by
      unfold parseStage
      rw [hY, tokenize_lit_div100 h]
      exact parse_T1_float (qAdd (digitsVal ds : ℚ) (fracVal fs))
    rw [safe_eval_eq hpL, safe_eval_eq hpR]
    have hfuel : evalE (evalFuel ⟨litChars ds (some fs) ++ ['%']⟩)
        (.divE (.floatL (qAdd (digitsVal ds : ℚ) (fracVal fs))) (.intL 100))
        = evalE (evalFuel ⟨litChars ds (some fs) ++ ['/', '1', '0', '0']⟩)
          (.divE (.floatL (qAdd (digitsVal ds : ℚ) (fracVal fs))) (.intL 100)) := by
      simp only [evalFuel]
      conv_lhs => rw [evalE_div_float_stable]
      conv_rhs => rw [evalE_div_float_stable]
    rw [hfuel]

/-- Witness for claim C2: the universal part applied to the literal `7`. -/
theorem claim2_witness :
    safe_eval ⟨litChars ['7'] none ++ ['%']⟩
      = safe_eval ⟨litChars ['7'] none ++ ['/', '1', '0', '0']⟩ :=
  claim2_thm.1 ['7'] none ⟨by decide, by decide, fun fs hfs => by simp at hfs⟩
